import Mathlib

/-!
# NodeTreeExporter: the directory-tree renderer

A shallow embedding of `getDirectoryStructure` (src/tree.js) and the properties of its output.

The filesystem below a directory is a finite tree of entries: what `fs.readdirSync(dir)` lists,
in listing order, each entry carrying the answer of `fs.statSync(fullPath).isDirectory()` and,
for a directory, its own listing (what `readdirSync(path.join(dir, item))` returns).
The glob engine `minimatch` is an external library; it is a parameter
`minimatch : String → String → Bool` (item name, pattern) everywhere.

Entries of the tree are named by positions (paths of raw listing indices). The main result,
`getDirectoryStructure_eq_join_lines`, writes the output as the concatenation of one line per
rendered position; the properties of the output are then properties of the rendered positions.

The namespace `Fallible` holds the same function over a filesystem whose `readdirSync` and
`statSync` can throw, exceptions being the error side of `Except`. The namespace `OnPaths`
holds it over any map from paths to listings, cycles allowed, with a bound on the nesting of
invocations.

`loadConfig` (src/config.js), `mergeOptions` and `main` (src/cli.js) are embedded over JSON
values; the builtins they call (`Number`, `trim`, `JSON.parse`, `readFileSync`, `parseArgs`)
are parameters.
-/

namespace NodeTreeExporter

/-! ## Data model -/

/-- One child of a directory: a plain file, or a directory together with its listing. -/
inductive Entry where
  | file (name : String)
  | dir (name : String) (children : List Entry)

/-- The bare name returned by `readdirSync` for this entry (`item` in tree.js). -/
def Entry.name : Entry → String
  | .file name => name
  | .dir name _ => name

/-- The value of `fs.statSync(fullPath).isDirectory()`. -/
def Entry.isDirectory : Entry → Bool
  | .file _ => false
  | .dir _ _ => true

/-- The listing of the entry when it is a directory (a file has none). -/
def Entry.children : Entry → List Entry
  | .file _ => []
  | .dir _ children => children

/-- The resolved options structure (config.js `DEFAULTS` gives the field names); `maxDepth` is
`null` (here `none`) or a non-negative integer. -/
structure Options where
  excludeDirs : List String
  excludeFiles : List String
  includeFiles : Bool
  maxDepth : Option Nat

/-! ## tree.js -/

/-- The callback of `items.filter(...)`, tree.js lines 8-19. -/
def isVisible (minimatch : String → String → Bool) (options : Options) (item : Entry) : Bool :=
  let isDir := item.isDirectory
  if isDir && options.excludeDirs.any (fun p => minimatch item.name p) then false
  else if !isDir && options.excludeFiles.any (fun p => minimatch item.name p) then false
  else if !options.includeFiles && !isDir then false
  else true

/-- The test `options.maxDepth == null || depth < options.maxDepth`, tree.js line 33. -/
def mayDescend (options : Options) (depth : Nat) : Bool :=
  match options.maxDepth with
  | none => true
  | some maxDepth => decide (depth < maxDepth)

/-- The function `getDirectoryStructure(dir, options, indent, depth)` of tree.js lines 5-39.
The argument `dir` is the listing of the directory; `forEach` with its accumulator
`result += ...` is a left fold over the indexed filtered list. -/
def getDirectoryStructure (minimatch : String → String → Bool) (dir : List Entry)
    (options : Options) (indent : String) (depth : Nat) : String :=
  let visibleItems := dir.attach.filter (fun item => isVisible minimatch options item.val)
  visibleItems.enum.foldl (fun result (index, item) =>
    let isLast := index == visibleItems.length - 1
    let connector := if isLast then "└── " else "├── "
    let subIndent := indent ++ (if isLast then "    " else "│   ")
    let result := result ++ (indent ++ connector ++ item.val.name ++ "\n")
    match h : item.val with
    | .dir _ children =>
      if mayDescend options depth then
        have : sizeOf children < sizeOf dir := by
          have h1 := List.sizeOf_lt_of_mem item.property
          rw [h] at h1
          simp at h1
          omega
        result ++ getDirectoryStructure minimatch children options subIndent (depth + 1)
      else result
    | .file _ => result) ""
termination_by sizeOf dir

/-! ## Vocabulary for the properties -/

/-- The connector of a line: `isLast ? "└── " : "├── "`. -/
def connector (isLast : Bool) : String := if isLast then "└── " else "├── "

/-- The indent segment handed to the children: `isLast ? "    " : "│   "`. -/
def segment (isLast : Bool) : String := if isLast then "    " else "│   "

/-- What is appended right after the line of `item` at a level of depth `depth`: the recursive
call on the item with the extended indent when the item is a directory and the depth test
passes, nothing otherwise (tree.js lines 30-35). -/
def expansion (minimatch : String → String → Bool) (options : Options) (subIndent : String)
    (depth : Nat) : Entry → String
  | .dir _ children =>
    if mayDescend options depth then
      getDirectoryStructure minimatch children options subIndent (depth + 1)
    else ""
  | .file _ => ""

/-- The text emitted for one filtered item: its own line followed by its expansion. -/
def block (minimatch : String → String → Bool) (options : Options) (indent : String)
    (depth : Nat) (isLast : Bool) (item : Entry) : String :=
  (indent ++ connector isLast ++ item.name ++ "\n")
    ++ expansion minimatch options (indent ++ segment isLast) depth item

/-! ## Positions of entries and the lines of the output -/

/-- The entry at a position. Position `[i₀, …, iₖ]` names child `iₖ` of child `iₖ₋₁` of … of
child `i₀` of the listing `dir`; the indices count in the raw (unfiltered) listings. Root
children have positions of length 1. -/
def entryAt : List Entry → List Nat → Option Entry
  | _, [] => none
  | dir, i :: rest =>
    match dir[i]?, rest with
    | none, _ => none
    | some item, [] => some item
    | some item, _ :: _ => entryAt item.children rest

/-- No item after raw index `i` passes the filter: an item of the filtered list that sits at raw
index `i` is the last item of the filtered list. -/
def isLastVisible (minimatch : String → String → Bool) (options : Options) (dir : List Entry)
    (i : Nat) : Bool :=
  (dir.drop (i + 1)).all (fun item => !isVisible minimatch options item)

/-- Whether the entry at a position is the last item of the filtered list of its parent. -/
def lastAt (minimatch : String → String → Bool) (options : Options) :
    List Entry → List Nat → Bool
  | _, [] => false
  | dir, i :: rest =>
    match dir[i]?, rest with
    | none, _ => false
    | some _, [] => isLastVisible minimatch options dir i
    | some item, _ :: _ => lastAt minimatch options item.children rest

/-- The name of the entry at a position (empty when there is none). -/
def nameAt (dir : List Entry) (pos : List Nat) : String :=
  match entryAt dir pos with
  | some item => item.name
  | none => ""

/-- The line of the entry at position `pos` of the tree `dir`, for an empty initial indent: one
segment per ancestor below the root, outermost first, `"    "` when that ancestor is the last
item of its filtered list and `"│   "` when it is not; then the connector of the entry, its
name and a newline. -/
def lineText (minimatch : String → String → Bool) (options : Options) (dir : List Entry)
    (pos : List Nat) : String :=
  String.join ((List.range (pos.length - 1)).map (fun k =>
      segment (lastAt minimatch options dir (pos.take (k + 1)))))
    ++ connector (lastAt minimatch options dir pos) ++ nameAt dir pos ++ "\n"

mutual
/-- The positions of the entries that get a line, in the order of the lines, for the part
`items` of a listing that starts at raw index `raw`, at a level of depth `depth`. -/
def shownFrom (minimatch : String → String → Bool) (options : Options) (depth raw : Nat) :
    List Entry → List (List Nat)
  | [] => []
  | item :: rest =>
    (if isVisible minimatch options item then
      [raw] :: (shownUnder minimatch options depth item).map (fun pos => raw :: pos)
    else [])
      ++ shownFrom minimatch options depth (raw + 1) rest
/-- The positions, relative to `item`, of the entries below `item` that get a line. -/
def shownUnder (minimatch : String → String → Bool) (options : Options) (depth : Nat) :
    Entry → List (List Nat)
  | .file _ => []
  | .dir _ children =>
    if mayDescend options depth then shownFrom minimatch options (depth + 1) 0 children else []
end

/-- The positions of the entries of the tree `dir` that get a line in
`getDirectoryStructure(dir, options, indent, depth)`, in the order of the lines. -/
def renderedPositions (minimatch : String → String → Bool) (options : Options) (depth : Nat)
    (dir : List Entry) : List (List Nat) :=
  shownFrom minimatch options depth 0 dir

/-- The position exists in the tree, and the entry there and each of its ancestors below the
root pass the filter. -/
def visibleAlong (minimatch : String → String → Bool) (options : Options) :
    List Entry → List Nat → Bool
  | _, [] => false
  | dir, i :: rest =>
    match dir[i]?, rest with
    | none, _ => false
    | some item, [] => isVisible minimatch options item
    | some item, _ :: _ =>
      isVisible minimatch options item && visibleAlong minimatch options item.children rest

/-- The depth test lets a call of depth `depth` reach the relative position `pos`: the children
of the called directory are always listed, and a position of length `n + 2` needs the test
`mayDescend` to pass at each of the depths `depth, …, depth + n`, of which the last is the
strongest. -/
def withinDepth (options : Options) (depth : Nat) (pos : List Nat) : Bool :=
  decide (pos.length ≤ 1) || mayDescend options (depth + pos.length - 2)

/-! ## The renderer over a filesystem whose lookups can fail -/

namespace Fallible

/-- The lookup that threw: `fs.readdirSync` (listing) or `fs.statSync` (status). -/
inductive FsError where
  | listing
  | status
deriving DecidableEq

/-- One child of a directory when lookups can fail: a file, a directory whose own listing
succeeds (`some`) or throws (`none`), or an entry whose status lookup throws (a broken link, an
entry removed meanwhile). -/
inductive FsEntry where
  | file (name : String)
  | dir (name : String) (listing : Option (List FsEntry))
  | broken (name : String)

/-- The bare name of the entry. -/
def FsEntry.name : FsEntry → String
  | .file name => name
  | .dir name _ => name
  | .broken name => name

/-- The lookup `fs.statSync(fullPath).isDirectory()`. -/
def FsEntry.isDirectory : FsEntry → Except FsError Bool
  | .file _ => .ok false
  | .dir _ _ => .ok true
  | .broken _ => .error .status

/-- The lookup `fs.readdirSync(fullPath)`: `none` when it throws. -/
def FsEntry.listing : FsEntry → Option (List FsEntry)
  | .dir _ listing => listing
  | _ => none

/-- The method `Array.prototype.filter` with a callback that can throw: the callback runs on
each element in order and the first exception ends the call. -/
def filterE {α : Type} (p : α → Except FsError Bool) : List α → Except FsError (List α)
  | [] => .ok []
  | a :: l => do
    let keep ← p a
    let rest ← filterE p l
    pure (if keep then a :: rest else rest)

/-- The callback of `items.filter(...)`, tree.js lines 8-19, with the status lookup fallible. -/
def isVisible (minimatch : String → String → Bool) (options : Options) (item : FsEntry) :
    Except FsError Bool := do
  let isDir ← item.isDirectory
  if isDir && options.excludeDirs.any (fun p => minimatch item.name p) then pure false
  else if !isDir && options.excludeFiles.any (fun p => minimatch item.name p) then pure false
  else if !options.includeFiles && !isDir then pure false
  else pure true

/-- The function `getDirectoryStructure` of tree.js lines 5-39 with fallible lookups and no
handler: `dir` is what `fs.readdirSync(dir)` yields (`none` when it throws); an exception
leaves the function at once, dropping the accumulated `result`. -/
def getDirectoryStructure (minimatch : String → String → Bool) (dir : Option (List FsEntry))
    (options : Options) (indent : String) (depth : Nat) : Except FsError String :=
  match dir with
  | none => .error .listing
  | some items => do
    let visibleItems ← filterE (fun item => isVisible minimatch options item.val) items.attach
    visibleItems.enum.foldlM (fun result (index, item) => do
      let isLast := index == visibleItems.length - 1
      let connector := if isLast then "└── " else "├── "
      let subIndent := indent ++ (if isLast then "    " else "│   ")
      let result := result ++ (indent ++ connector ++ item.val.name ++ "\n")
      let isDir ← item.val.isDirectory
      if isDir && mayDescend options depth then
        have : sizeOf item.val.listing < 1 + sizeOf items := by
          have h1 := List.sizeOf_lt_of_mem item.property
          have h2 : sizeOf item.val.listing < 1 + sizeOf item.val := by
            cases item.val <;> simp [FsEntry.listing]
            omega
          omega
        let sub ← getDirectoryStructure minimatch item.val.listing options subIndent (depth + 1)
        pure (result ++ sub)
      else pure result) ""
termination_by sizeOf dir

/-- The body of the `forEach` callback, tree.js lines 24-35, for the filtered item `item` of
index `index` in a filtered list of length `len`, started with the accumulator `result`. -/
def emit (minimatch : String → String → Bool) (options : Options) (indent : String)
    (depth len : Nat) (result : String) (index : Nat) (item : FsEntry) :
    Except FsError String := do
  let isLast := index == len - 1
  let result := result ++ (indent ++ connector isLast ++ item.name ++ "\n")
  let isDir ← item.isDirectory
  if isDir && mayDescend options depth then
    let sub ← getDirectoryStructure minimatch item.listing options (indent ++ segment isLast)
      (depth + 1)
    pure (result ++ sub)
  else pure result

mutual
/-- Every lookup made by a call at depth `depth` on the directory succeeds: its listing
succeeds, the status lookup of each of its children succeeds, and the same holds at depth
`depth + 1` for each child directory that the call expands (one that passes the filter, the
depth test passing). -/
def visitedOk (minimatch : String → String → Bool) (options : Options) (depth : Nat) :
    Option (List FsEntry) → Bool
  | none => false
  | some items => visitedOkItems minimatch options depth items
/-- The lookups for the children `items` of a visited directory all succeed. -/
def visitedOkItems (minimatch : String → String → Bool) (options : Options) (depth : Nat) :
    List FsEntry → Bool
  | [] => true
  | item :: rest =>
    visitedOkItem minimatch options depth item && visitedOkItems minimatch options depth rest
/-- The lookups for one child of a visited directory all succeed. -/
def visitedOkItem (minimatch : String → String → Bool) (options : Options) (depth : Nat) :
    FsEntry → Bool
  | .file _ => true
  | .broken _ => false
  | .dir name listing =>
    if !options.excludeDirs.any (fun p => minimatch name p) && mayDescend options depth then
      visitedOk minimatch options (depth + 1) listing
    else true
end

mutual
/-- The tree without failures that agrees with the fallible one wherever lookups succeed: a
failing listing becomes an empty listing, an entry whose status fails becomes a file. -/
def heal : Option (List FsEntry) → List Entry
  | none => []
  | some items => healItems items
/-- The children of a directory, healed one by one. -/
def healItems : List FsEntry → List Entry
  | [] => []
  | item :: rest => healItem item :: healItems rest
/-- One child, healed. -/
def healItem : FsEntry → Entry
  | .file name => .file name
  | .broken name => .file name
  | .dir name listing => .dir name (heal listing)
end

end Fallible

/-! ## config.js and cli.js

The builtins the two modules call are parameters: `Number` on strings (`toNumber`), the class of
characters that `trim` strips (`isWhiteSpace`), `fs.readFileSync`, `JSON.parse`, `parseArgs` of
`node:util` with the option table of cli.js, `path.resolve` and `process.cwd()`. -/

/-- A JavaScript number value: NaN, the two infinities, or a finite value (`-0` is `0`). -/
inductive JsNumber where
  | nan
  | posInfinity
  | negInfinity
  | finite (value : ℚ)

/-- The builtin `Number.isInteger`. -/
def JsNumber.isInteger : JsNumber → Bool
  | .finite value => value.isInt
  | _ => false

/-- The comparison `x < 0`. -/
def JsNumber.ltZero : JsNumber → Bool
  | .finite value => decide (value < 0)
  | .negInfinity => true
  | _ => false

/-- A JSON value, as `JSON.parse` returns it. -/
inductive Json where
  | null
  | bool (b : Bool)
  | num (x : JsNumber)
  | str (s : String)
  | arr (items : List Json)
  | obj (fields : List (String × Json))

/-- The options object that config.js and cli.js pass around: four properties, each holding
any value. -/
structure RawOptions where
  excludeDirs : Json
  excludeFiles : Json
  includeFiles : Json
  maxDepth : Json

/-- The constant `DEFAULTS` of config.js lines 4-9. -/
def DEFAULTS : RawOptions :=
  { excludeDirs := .arr [], excludeFiles := .arr [], includeFiles := .bool false,
    maxDepth := .null }

/-- The argument `configPath` of `loadConfig`: `false`, `undefined`, or a path. -/
inductive ConfigPath where
  | disabled
  | absent
  | given (path : String)

/-- What `loadConfig` reads from its surroundings: `fs.readFileSync(path, "utf8")` and
`JSON.parse`, each returning its value or throwing, and the value of
`path.join(__dirname, "../config/config.json")`. -/
structure ConfigEnv where
  readFileSync : String → Except String String
  jsonParse : String → Except String Json
  defaultPath : String

/-- Reading one of the four option properties on a parsed value: on `null` it throws a
`TypeError`, on an object it is the property or `undefined` (`none`), on any other value it is
`undefined`. -/
def Json.getProperty : Json → String → Except String (Option Json)
  | .null, _ => .error "TypeError"
  | .obj fields, key => .ok (fields.lookup key)
  | _, _ => .ok none

/-- The operator `value ?? fallback`. -/
def nullish (value : Option Json) (fallback : Json) : Json :=
  match value with
  | none => fallback
  | some .null => fallback
  | some v => v

/-- The function `loadConfig(configPath)` of config.js lines 11-31; the `catch` turns every
exception of the `try` block into the defaults. -/
def loadConfig (env : ConfigEnv) (configPath : ConfigPath) : RawOptions :=
  match configPath with
  | .disabled => DEFAULTS
  | _ =>
    let resolvedPath :=
      match configPath with
      | .given path => path
      | _ => env.defaultPath
    let attempt : Except String RawOptions := do
      let text ← env.readFileSync resolvedPath
      let config ← env.jsonParse text
      let excludeDirs ← config.getProperty "excludeDirs"
      let excludeFiles ← config.getProperty "excludeFiles"
      let includeFiles ← config.getProperty "includeFiles"
      let maxDepth ← config.getProperty "maxDepth"
      pure { excludeDirs := nullish excludeDirs DEFAULTS.excludeDirs,
             excludeFiles := nullish excludeFiles DEFAULTS.excludeFiles,
             includeFiles := nullish includeFiles DEFAULTS.includeFiles,
             maxDepth := nullish maxDepth DEFAULTS.maxDepth }
    match attempt with
    | .ok options => options
    | .error _ => DEFAULTS

/-- The `values` object of `parseArgs`; `none` is an absent key (`undefined`). -/
structure CliValues where
  help : Option Bool
  includeFiles : Option Bool
  noIncludeFiles : Option Bool
  maxDepth : Option String
  excludeDirs : Option String
  excludeFiles : Option String
  config : Option String
  noConfig : Option Bool

/-- Truthiness of an optional boolean property. -/
def truthy : Option Bool → Bool
  | some b => b
  | none => false

/-- The method `split(",")`, on the characters of a string. -/
def splitComma : List Char → List (List Char)
  | [] => [[]]
  | c :: cs =>
    if c == ',' then [] :: splitComma cs
    else
      match splitComma cs with
      | piece :: rest => (c :: piece) :: rest
      | [] => [[c]]

/-- The method `trim()`, `isWhiteSpace` being the class of characters it strips. -/
def trim (isWhiteSpace : Char → Bool) (cs : List Char) : List Char :=
  ((cs.dropWhile isWhiteSpace).reverse.dropWhile isWhiteSpace).reverse

/-- The chain `.split(",").map((s) => s.trim()).filter(Boolean)` of cli.js lines 66-69. -/
def splitPatterns (isWhiteSpace : Char → Bool) (s : String) : List String :=
  ((splitComma s.data).map (fun piece => String.mk (trim isWhiteSpace piece))).filter
    (fun piece => piece != "")

/-- The message of the error thrown for an invalid `--max-depth`, cli.js line 59. -/
def invalidMaxDepthMessage (s : String) : String :=
  "Invalid --max-depth value: \"" ++ s ++ "\". Must be a non-negative integer."

/-- The function `mergeOptions(configOpts, cliValues)` of cli.js lines 46-80; a thrown error
is the error side of `Except`, carrying its message. -/
def mergeOptions (toNumber : String → JsNumber) (isWhiteSpace : Char → Bool)
    (configOpts : RawOptions) (cliValues : CliValues) : Except String RawOptions := do
  let merged := configOpts
  let merged :=
    if truthy cliValues.noIncludeFiles then { merged with includeFiles := .bool false }
    else
      match cliValues.includeFiles with
      | some v => { merged with includeFiles := .bool v }
      | none => merged
  let merged ←
    match cliValues.maxDepth with
    | some s =>
      let parsed := toNumber s
      if !parsed.isInteger || parsed.ltZero then throw (invalidMaxDepthMessage s)
      else pure { merged with maxDepth := .num parsed }
    | none => pure merged
  let merged :=
    match cliValues.excludeDirs with
    | some s => { merged with excludeDirs := .arr ((splitPatterns isWhiteSpace s).map .str) }
    | none => merged
  let merged :=
    match cliValues.excludeFiles with
    | some s => { merged with excludeFiles := .arr ((splitPatterns isWhiteSpace s).map .str) }
    | none => merged
  return merged

/-- The constant `HELP_TEXT` of cli.js lines 8-24. -/
def HELP_TEXT : String :=
  "Usage: tree-export [options] [directory]\n\nOptions:\n"
  ++ "  -h, --help                      Show help with usage and examples\n"
  ++ "  -f, --include-files             Include files in output (default: from config or false)\n"
  ++ "      --no-include-files          Show only directories\n"
  ++ "  -d, --max-depth <number>        Maximum depth (0 = root only, omit for unlimited)\n"
  ++ "  -D, --exclude-dirs <patterns>   Comma-separated directory exclusion globs\n"
  ++ "  -X, --exclude-files <patterns>  Comma-separated file exclusion globs\n"
  ++ "  -c, --config <path>             Path to custom config.json\n"
  ++ "      --no-config                 Ignore config.json entirely\n\nExamples:\n"
  ++ "  tree-export\n  tree-export --include-files --max-depth 2\n"
  ++ "  tree-export --exclude-dirs \"node_modules,.git\" /path/to/project\n"
  ++ "  tree-export --no-config --include-files"

/-- The result of `parseCliArgs`. -/
structure Parsed where
  values : CliValues
  positionals : List String

/-- What `main` reads from its surroundings. `parseCliArgs` is `parseArgs` with the option
table of cli.js lines 27-41 (an error carries `e.message`); `render` is the call
`getDirectoryStructure(rootDir, options)`, which returns the text or throws. -/
structure MainEnv where
  parseCliArgs : List String → Except String Parsed
  toNumber : String → JsNumber
  isWhiteSpace : Char → Bool
  config : ConfigEnv
  resolve : String → String
  cwd : String
  processArgs : List String
  render : String → RawOptions → Except String String

/-- What a run of `main` does: the lines given to `console.log` and to `console.error`, the
value assigned to `process.exitCode` (`none` when it is not assigned), the calls of
`getDirectoryStructure`, and the exception that leaves `main`, if any. -/
structure Outcome where
  stdout : List String
  stderr : List String
  exitCode : Option Nat
  renderCalls : List (String × RawOptions)
  uncaught : Option String

/-- The function `main(argv)` of cli.js lines 82-124. -/
def main (env : MainEnv) (argv : Option (List String)) : Outcome :=
  let args := argv.getD env.processArgs
  match env.parseCliArgs args with
  | .error message =>
    { stdout := [],
      stderr := ["Error: " ++ message, "Run \"tree-export --help\" for usage information."],
      exitCode := some 1, renderCalls := [], uncaught := none }
  | .ok parsed =>
    if truthy parsed.values.help then
      { stdout := [HELP_TEXT], stderr := [], exitCode := none, renderCalls := [],
        uncaught := none }
    else
      let configPath :=
        if truthy parsed.values.noConfig then ConfigPath.disabled
        else
          match parsed.values.config with
          | some path => ConfigPath.given (env.resolve path)
          | none => ConfigPath.absent
      let configOpts := loadConfig env.config configPath
      match mergeOptions env.toNumber env.isWhiteSpace configOpts parsed.values with
      | .error message =>
        { stdout := [], stderr := ["Error: " ++ message], exitCode := some 1,
          renderCalls := [], uncaught := none }
      | .ok options =>
        let rootDir :=
          match parsed.positionals with
          | first :: _ => env.resolve first
          | [] => env.cwd
        match env.render rootDir options with
        | .ok text =>
          { stdout := [".\n" ++ text], stderr := [], exitCode := none,
            renderCalls := [(rootDir, options)], uncaught := none }
        | .error e =>
          { stdout := [], stderr := [], exitCode := none,
            renderCalls := [(rootDir, options)], uncaught := some e }

/-! ### Sample builtins for the examples -/

/-- The value of a string of decimal digits. -/
def digitsValue (cs : List Char) : Nat :=
  cs.foldl (fun n c => 10 * n + (c.toNat - '0'.toNat)) 0

/-- A sample of `Number` on strings for the examples. It answers as `Number` does on the
strings the examples use: strings that are empty or blank (`0`), strings of decimal digits
below 2^53, `-` followed by such digits, and strings of letters such as `abc` (NaN). On the
remaining strings it answers NaN, which need not be what `Number` answers. -/
def sampleNumber (s : String) : JsNumber :=
  let cs := trim Char.isWhitespace s.data
  if cs.isEmpty then .finite 0
  else if cs.all Char.isDigit then .finite (digitsValue cs)
  else
    match cs with
    | '-' :: ds =>
      if !ds.isEmpty && ds.all Char.isDigit then .finite (-(digitsValue ds : ℚ)) else .nan
    | _ => .nan

/-- The spacing of the doubles at `n`: 1 below 2^53, and doubled with every halving that it
takes to bring `n` below 2^53; `fuel` bounds the halvings. -/
def spacing : Nat → Nat → Nat
  | 0, _ => 1
  | fuel + 1, n => if n < 2 ^ 53 then 1 else 2 * spacing fuel (n / 2)

/-- The number value of the natural number `n`, as `Number` gives it for the decimal numeral
of `n`: the double nearest to `n`, a tie going to the even significand, and `Infinity` when
the rounded value reaches 2^1024 (written `(2 ^ 256) ^ 4`). Below 2^53 the spacing is 1 and the
value is `n` itself. -/
def roundToDouble (n : Nat) : JsNumber :=
  let u := spacing n n
  let q := n / u
  let r := n % u
  let m :=
    if 2 * r < u then q
    else if u < 2 * r then q + 1
    else if q % 2 == 0 then q
    else q + 1
  if m * u < (2 ^ 256) ^ 4 then .finite ((m * u : Nat) : ℚ) else .posInfinity

/-- A sample of `Number` on strings that rounds as `Number` does: a string of decimal digits
has the double nearest to its value; the other strings are answered as by `sampleNumber`. -/
def doubleNumber (s : String) : JsNumber :=
  let cs := trim Char.isWhitespace s.data
  if !cs.isEmpty && cs.all Char.isDigit then roundToDouble (digitsValue cs) else sampleNumber s

/-- The `values` of an empty command line: the three defaults of the option table. -/
def noValues : CliValues :=
  { help := some false, includeFiles := none, noIncludeFiles := some false, maxDepth := none,
    excludeDirs := none, excludeFiles := none, config := none, noConfig := some false }

/-- A sample of `parseCliArgs` for the examples: the long options and the positionals; an
unknown option is an error (with the start of the message of `parseArgs`). -/
def sampleParse : List String → Parsed → Except String Parsed
  | [], acc => .ok acc
  | "--help" :: rest, acc =>
    sampleParse rest { acc with values := { acc.values with help := some true } }
  | "--include-files" :: rest, acc =>
    sampleParse rest { acc with values := { acc.values with includeFiles := some true } }
  | "--no-include-files" :: rest, acc =>
    sampleParse rest { acc with values := { acc.values with noIncludeFiles := some true } }
  | "--no-config" :: rest, acc =>
    sampleParse rest { acc with values := { acc.values with noConfig := some true } }
  | ["--max-depth"], _ => .error "Option '-d, --max-depth <value>' argument missing"
  | "--max-depth" :: v :: rest, acc =>
    sampleParse rest { acc with values := { acc.values with maxDepth := some v } }
  | ["--exclude-dirs"], _ => .error "Option '-D, --exclude-dirs <value>' argument missing"
  | "--exclude-dirs" :: v :: rest, acc =>
    sampleParse rest { acc with values := { acc.values with excludeDirs := some v } }
  | ["--exclude-files"], _ => .error "Option '-X, --exclude-files <value>' argument missing"
  | "--exclude-files" :: v :: rest, acc =>
    sampleParse rest { acc with values := { acc.values with excludeFiles := some v } }
  | ["--config"], _ => .error "Option '-c, --config <value>' argument missing"
  | "--config" :: v :: rest, acc =>
    sampleParse rest { acc with values := { acc.values with config := some v } }
  | arg :: rest, acc =>
    if arg.data.head? == some '-' then .error ("Unknown option '" ++ arg ++ "'")
    else sampleParse rest { acc with positionals := acc.positionals ++ [arg] }

/-- A sample surrounding for `main`: no config file can be read, paths resolve to themselves,
and the renderer answers a fixed text. -/
def sampleEnv : MainEnv :=
  { parseCliArgs := fun args => sampleParse args { values := noValues, positionals := [] },
    toNumber := sampleNumber,
    isWhiteSpace := Char.isWhitespace,
    config := { readFileSync := fun _ => .error "ENOENT", jsonParse := fun _ => .error "SyntaxError",
                defaultPath := "config/config.json" },
    resolve := fun path => path,
    cwd := "/work",
    processArgs := [],
    render := fun _ _ => .ok "└── src\n" }

/-! ## tree.js over a map from paths to listings -/

/-- A filesystem given by the three lookups of tree.js on paths of any type `P`:
`fs.readdirSync(dir)`, `path.join(dir, item)` and `fs.statSync(fullPath).isDirectory()`.
Listings are finite; nothing forbids a cycle (a path may be reached again below itself). -/
structure FileSystem (P : Type) where
  readdirSync : P → List String
  join : P → String → P
  isDirectory : P → Bool

namespace OnPaths

/-- The callback of `items.filter(...)`, tree.js lines 8-19, in the directory `dir`. -/
def isVisible {P : Type} (fs : FileSystem P) (minimatch : String → String → Bool)
    (options : Options) (dir : P) (item : String) : Bool :=
  let fullPath := fs.join dir item
  let isDir := fs.isDirectory fullPath
  if isDir && options.excludeDirs.any (fun p => minimatch item p) then false
  else if !isDir && options.excludeFiles.any (fun p => minimatch item p) then false
  else if !options.includeFiles && !isDir then false
  else true

/-- The function `getDirectoryStructure` of tree.js lines 5-39 with a bound on the nesting of
its invocations: `fuel` invocations may be nested, the one being made included; `none` is the
answer when a further one would be needed. -/
def getDirectoryStructure {P : Type} (fs : FileSystem P)
    (minimatch : String → String → Bool) :
    Nat → P → Options → String → Nat → Option String
  | 0, _, _, _, _ => none
  | fuel + 1, dir, options, indent, depth =>
    let items := fs.readdirSync dir
    let visibleItems := items.filter (isVisible fs minimatch options dir)
    visibleItems.enum.foldlM (fun result (index, item) =>
      let isLast := index == visibleItems.length - 1
      let connector := if isLast then "└── " else "├── "
      let subIndent := indent ++ (if isLast then "    " else "│   ")
      let result := result ++ (indent ++ connector ++ item ++ "\n")
      let fullPath := fs.join dir item
      let isDir := fs.isDirectory fullPath
      if isDir && mayDescend options depth then
        match getDirectoryStructure fs minimatch fuel fullPath options subIndent (depth + 1) with
        | some sub => some (result ++ sub)
        | none => none
      else some result) ""

/-- The invocation on `dir` with depth argument `depth` makes a nested invocation on the child
`path.join(dir, item)` with depth argument `depth + 1`: tree.js lines 33-34. -/
inductive Calls {P : Type} (fs : FileSystem P) (minimatch : String → String → Bool)
    (options : Options) : P × Nat → P × Nat → Prop
  | nested (dir : P) (depth : Nat) (item : String) (hitem : item ∈ fs.readdirSync dir)
      (hvisible : isVisible fs minimatch options dir item = true)
      (hdir : fs.isDirectory (fs.join dir item) = true)
      (hdepth : mayDescend options depth = true) :
      Calls fs minimatch options (dir, depth) (fs.join dir item, depth + 1)

/-- Below `dir` the directories nest at most `h` deep: `dir` has no subdirectory when `h` is
0, and each subdirectory of `dir` nests at most `h` deep when the bound is `h + 1`. A
filesystem with a cycle through `dir` meets no such bound. -/
def dirDepthLE {P : Type} (fs : FileSystem P) : Nat → P → Bool
  | 0, dir => (fs.readdirSync dir).all (fun item => !fs.isDirectory (fs.join dir item))
  | h + 1, dir =>
    (fs.readdirSync dir).all (fun item =>
      !fs.isDirectory (fs.join dir item) || dirDepthLE fs h (fs.join dir item))

end OnPaths

/-- A sample filesystem with a cycle: one directory whose entry `loop` is the directory
itself. -/
def loopFs : FileSystem Unit :=
  { readdirSync := fun _ => ["loop"], join := fun _ _ => (), isDirectory := fun _ => true }

/-- A sample filesystem without cycle, paths being numbers: the root `0` holds the directory
`a` (path `1`), which holds the directory `b` (path `2`), which is empty. -/
def chainFs : FileSystem Nat :=
  { readdirSync := fun dir => if dir = 0 then ["a"] else if dir = 1 then ["b"] else [],
    join := fun dir _ => dir + 1,
    isDirectory := fun path => decide (path ≤ 2) }

/-! ## index.js: the renderer before the refactoring -/

namespace Legacy

/-- The callback of `items.filter(...)`, index.js lines 41-58. -/
def isVisible (minimatch : String → String → Bool) (includeFiles : Bool) (config : Options)
    (item : Entry) : Bool :=
  let isDir := item.isDirectory
  if isDir && config.excludeDirs.any (fun pattern => minimatch item.name pattern) then false
  else if !isDir && config.excludeFiles.any (fun pattern => minimatch item.name pattern) then
    false
  else if !includeFiles && !isDir then false
  else true

/-- The function `getDirectoryStructure(dir, includeFiles, config, indent, depth)` of index.js
lines 31-85, over the same trees as the function of tree.js. -/
def getDirectoryStructure (minimatch : String → String → Bool) (dir : List Entry)
    (includeFiles : Bool) (config : Options) (indent : String) (depth : Nat) : String :=
  let visibleItems :=
    dir.attach.filter (fun item => isVisible minimatch includeFiles config item.val)
  visibleItems.enum.foldl (fun result (index, item) =>
    let isLast := index == visibleItems.length - 1
    let connector := if isLast then "└── " else "├── "
    let subIndent := indent ++ (if isLast then "    " else "│   ")
    let result := result ++ (indent ++ connector ++ item.val.name ++ "\n")
    match h : item.val with
    | .dir _ children =>
      if mayDescend config depth then
        have : sizeOf children < sizeOf dir := by
          have h1 := List.sizeOf_lt_of_mem item.property
          rw [h] at h1
          simp at h1
          omega
        let subResult :=
          getDirectoryStructure minimatch children includeFiles config subIndent (depth + 1)
        result ++ subResult
      else result
    | .file _ => result) ""
termination_by sizeOf dir

/-- The text index.js emits for one filtered item: its line, then `subResult` when the item
is a directory and the depth test passes. -/
def block (minimatch : String → String → Bool) (includeFiles : Bool) (config : Options)
    (indent : String) (depth : Nat) (isLast : Bool) : Entry → String
  | .dir name children =>
    (indent ++ connector isLast ++ name ++ "\n")
      ++ (if mayDescend config depth then
          getDirectoryStructure minimatch children includeFiles config
            (indent ++ segment isLast) (depth + 1)
        else "")
  | .file name => indent ++ connector isLast ++ name ++ "\n"

end Legacy

/-- A glob matcher for examples, standing in for `minimatch`: `*` matches any run of
characters, `?` one character, any other character itself. -/
def globChars : List Char → List Char → Bool
  | [], cs => cs.isEmpty
  | p :: ps, cs =>
    if p == '*' then cs.tails.any (globChars ps)
    else
      match cs with
      | [] => false
      | c :: rest => (p == '?' || p == c) && globChars ps rest

/-- The example matcher with the argument order of `minimatch(item, pattern)`. -/
def glob (item pattern : String) : Bool := globChars pattern.data item.data

/-! ## Unfolding the renderer -/

theorem foldl_enum_attach_filter {β : Type} (l : List Entry) (p : Entry → Bool)
    (f : β → Nat → Entry → β) (init : β) :
    (l.attach.filter (fun x => p x.val)).enum.foldl (fun r x => f r x.1 x.2.val) init
      = (l.filter p).enum.foldl (fun r x => f r x.1 x.2) init := by
  have h : l.filter p = (l.attach.filter (fun x => p x.val)).map Subtype.val := by
    conv_lhs => rw [← List.attach_map_subtype_val l]
    rw [List.filter_map]
    rfl
  rw [h, List.enum_map, List.foldl_map]
  rfl

theorem length_attach_filter (l : List Entry) (p : Entry → Bool) :
    (l.attach.filter (fun x => p x.val)).length = (l.filter p).length := by
  conv_rhs => rw [← List.attach_map_subtype_val l]
  rw [List.filter_map, List.length_map]
  rfl

/-- The renderer as a left fold over the indexed filtered listing, one `block` per item. -/
theorem getDirectoryStructure_eq_foldl (minimatch : String → String → Bool) (dir : List Entry)
    (options : Options) (indent : String) (depth : Nat) :
    getDirectoryStructure minimatch dir options indent depth =
      (dir.filter (isVisible minimatch options)).enum.foldl (fun result x =>
        result ++ block minimatch options indent depth
          (x.1 == (dir.filter (isVisible minimatch options)).length - 1) x.2) "" := by
  rw [getDirectoryStructure]
  rw [← foldl_enum_attach_filter dir (isVisible minimatch options) (fun result i item =>
        result ++ block minimatch options indent depth
          (i == (dir.filter (isVisible minimatch options)).length - 1) item) ""]
  simp only [length_attach_filter]
  congr 1
  funext result x
  obtain ⟨i, ⟨v, hv⟩⟩ := x
  cases v with
  | file n => simp [block, expansion, connector, segment]
  | dir n cs =>
    simp only [block, expansion, connector, segment]
    split <;> simp [String.append_assoc]

theorem foldl_append_init (l : List String) (init : String) :
    l.foldl (fun r s => r ++ s) init = init ++ l.foldl (fun r s => r ++ s) "" := by
  induction l generalizing init with
  | nil => simp
  | cons s l ih =>
    rw [List.foldl_cons, List.foldl_cons, ih (init ++ s), ih ("" ++ s)]
    simp [String.append_assoc]

theorem foldl_append_eq_join (l : List String) (init : String) :
    l.foldl (fun r s => r ++ s) init = init ++ String.join l :=
  foldl_append_init l init

theorem join_nil : String.join [] = "" := rfl

theorem join_cons (s : String) (l : List String) :
    String.join (s :: l) = s ++ String.join l := by
  have h : String.join (s :: l) = l.foldl (fun r s => r ++ s) ("" ++ s) := rfl
  rw [h, foldl_append_eq_join]
  simp

theorem join_append (l₁ l₂ : List String) :
    String.join (l₁ ++ l₂) = String.join l₁ ++ String.join l₂ := by
  induction l₁ with
  | nil => simp [join_nil]
  | cons s l ih => simp [join_cons, ih, String.append_assoc]

/-- The renderer is the concatenation, in filtered-list order, of the blocks of the filtered
items; the item of index `length - 1` is the last one. -/
theorem getDirectoryStructure_eq_join (minimatch : String → String → Bool) (dir : List Entry)
    (options : Options) (indent : String) (depth : Nat) :
    getDirectoryStructure minimatch dir options indent depth =
      String.join ((dir.filter (isVisible minimatch options)).enum.map (fun x =>
        block minimatch options indent depth
          (x.1 == (dir.filter (isVisible minimatch options)).length - 1) x.2)) := by
  rw [getDirectoryStructure_eq_foldl]
  have h := foldl_append_eq_join (((dir.filter (isVisible minimatch options)).enum.map (fun x =>
        block minimatch options indent depth
          (x.1 == (dir.filter (isVisible minimatch options)).length - 1) x.2))) ""
  rw [List.foldl_map] at h
  rw [h]
  simp

/-! ## Connectors -/

theorem map_enum_of_lt {β : Type} (l : List Entry) (n : Nat) (hn : l.length ≤ n)
    (g : Bool → Entry → β) :
    l.enum.map (fun x => g (x.1 == n) x.2) = l.map (g false) := by
  have h : l.enum.map (fun x => g (x.1 == n) x.2) = l.enum.map (fun x => g false x.2) := by
    apply List.map_congr_left
    intro x hx
    have hlt : x.1 < l.length := by
      have := List.mem_enum_iff_getElem?.mp hx
      exact (List.getElem?_eq_some_iff.mp this).1
    have hne : (x.1 == n) = false := by
      simp only [beq_eq_false_iff_ne, ne_eq]
      omega
    rw [hne]
  rw [h]
  have h2 : l.enum.map (fun x => g false x.2) = (l.enum.map Prod.snd).map (g false) := by
    rw [List.map_map]
    rfl
  rw [h2, List.enum_map_snd]

/-- C1. At every level (any listing `dir`, any `indent`, any `depth`), when the filtered list is
`pre ++ [last]` the output is, in order, for each item of `pre` its line
`indent ++ "├── " ++ name ++ "\n"` followed by its expansion, and then for `last` the line
`indent ++ "└── " ++ name ++ "\n"` followed by its expansion: the last item is the last one of
the filtered list, whatever the raw listing holds after it. -/
theorem connector_decided_on_filtered_list (minimatch : String → String → Bool)
    (dir : List Entry) (options : Options) (indent : String) (depth : Nat)
    (pre : List Entry) (last : Entry)
    (h : dir.filter (isVisible minimatch options) = pre ++ [last]) :
    getDirectoryStructure minimatch dir options indent depth =
      String.join (pre.map (fun item =>
        (indent ++ "├── " ++ item.name ++ "\n")
          ++ expansion minimatch options (indent ++ "│   ") depth item))
      ++ ((indent ++ "└── " ++ last.name ++ "\n")
          ++ expansion minimatch options (indent ++ "    ") depth last) := by
  rw [getDirectoryStructure_eq_join, h, List.enum_append, List.map_append, join_append]
  have hlen : (pre ++ [last]).length - 1 = pre.length := by simp
  rw [hlen, map_enum_of_lt pre pre.length (Nat.le_refl _)
    (fun b item => block minimatch options indent depth b item)]
  simp [List.enumFrom, join_cons, join_nil, block, connector, segment]

/-- C1, on a listing whose trailing entry is filtered out: `readme.txt` is a file and files are
not included, so `zzz` takes the connector of the last item. -/
theorem connector_decided_on_filtered_list_witness :
    [Entry.dir "aaa" [], Entry.dir "zzz" [], Entry.file "readme.txt"].filter
        (isVisible (fun _ _ => false) ⟨[], [], false, none⟩)
      = [Entry.dir "aaa" []] ++ [Entry.dir "zzz" []]
    ∧ getDirectoryStructure (fun _ _ => false)
        [Entry.dir "aaa" [], Entry.dir "zzz" [], Entry.file "readme.txt"]
        ⟨[], [], false, none⟩ "" 0 =
      String.join ([Entry.dir "aaa" []].map (fun item =>
        ("" ++ "├── " ++ item.name ++ "\n")
          ++ expansion (fun _ _ => false) ⟨[], [], false, none⟩ ("" ++ "│   ") 0 item))
      ++ (("" ++ "└── " ++ (Entry.dir "zzz" []).name ++ "\n")
          ++ expansion (fun _ _ => false) ⟨[], [], false, none⟩ ("" ++ "    ") 0
            (Entry.dir "zzz" [])) :=
  ⟨rfl, connector_decided_on_filtered_list (fun _ _ => false)
    [Entry.dir "aaa" [], Entry.dir "zzz" [], Entry.file "readme.txt"]
    ⟨[], [], false, none⟩ "" 0 [Entry.dir "aaa" []] (Entry.dir "zzz" []) rfl⟩

/-! ## The output as the sequence of the lines of the rendered positions -/

/-- Induction over directory trees: a property of listings holds for every listing when it
holds for a listing as soon as it holds for the listing of each directory in it. -/
theorem forest_induction {P : List Entry → Prop}
    (step : ∀ dir, (∀ name children, Entry.dir name children ∈ dir → P children) → P dir)
    (dir : List Entry) : P dir := by
  have h : ∀ n (dir : List Entry), sizeOf dir < n → P dir := by
    intro n
    induction n with
    | zero => intro dir h; omega
    | succ n ih =>
      intro dir h
      apply step
      intro name children hmem
      apply ih
      have h1 := List.sizeOf_lt_of_mem hmem
      simp at h1
      omega
  exact h _ dir (Nat.lt_succ_self _)

theorem shownFrom_nil (minimatch : String → String → Bool) (options : Options)
    (depth raw : Nat) : shownFrom minimatch options depth raw [] = [] := by
  simp [shownFrom]

theorem shownFrom_cons (minimatch : String → String → Bool) (options : Options)
    (depth raw : Nat) (item : Entry) (rest : List Entry) :
    shownFrom minimatch options depth raw (item :: rest) =
      (if isVisible minimatch options item then
        [raw] :: (shownUnder minimatch options depth item).map (fun pos => raw :: pos)
      else [])
        ++ shownFrom minimatch options depth (raw + 1) rest := by
  simp [shownFrom]

theorem shownUnder_file (minimatch : String → String → Bool) (options : Options)
    (depth : Nat) (name : String) :
    shownUnder minimatch options depth (.file name) = [] := by
  simp [shownUnder]

theorem shownUnder_dir (minimatch : String → String → Bool) (options : Options)
    (depth : Nat) (name : String) (children : List Entry) :
    shownUnder minimatch options depth (.dir name children) =
      if mayDescend options depth then renderedPositions minimatch options (depth + 1) children
      else [] := by
  simp [shownUnder, renderedPositions]

theorem ne_nil_of_mem_shownFrom (minimatch : String → String → Bool) (options : Options)
    (depth : Nat) (items : List Entry) (raw : Nat) (pos : List Nat)
    (h : pos ∈ shownFrom minimatch options depth raw items) : pos ≠ [] := by
  induction items generalizing raw with
  | nil => simp [shownFrom_nil] at h
  | cons item rest ih =>
    rw [shownFrom_cons] at h
    rcases List.mem_append.mp h with h1 | h2
    · split at h1
      · rcases List.mem_cons.mp h1 with h3 | h3
        · simp [h3]
        · obtain ⟨q, _, hq⟩ := List.mem_map.mp h3
          simp [← hq]
      · simp at h1
    · exact ih _ h2

theorem lineText_single (minimatch : String → String → Bool) (options : Options)
    (dir : List Entry) (i : Nat) (item : Entry) (h : dir[i]? = some item) :
    lineText minimatch options dir [i] =
      connector (isLastVisible minimatch options dir i) ++ item.name ++ "\n" := by
  simp [lineText, lastAt, nameAt, entryAt, h, join_nil]

theorem lineText_cons (minimatch : String → String → Bool) (options : Options)
    (dir : List Entry) (i : Nat) (item : Entry) (h : dir[i]? = some item)
    (pos : List Nat) (hpos : pos ≠ []) :
    lineText minimatch options dir (i :: pos) =
      segment (isLastVisible minimatch options dir i)
        ++ lineText minimatch options item.children pos := by
  obtain ⟨j, rest, rfl⟩ := List.exists_cons_of_ne_nil hpos
  have hlast : ∀ q : List Nat, q ≠ [] →
      lastAt minimatch options dir (i :: q) = lastAt minimatch options item.children q := by
    intro q hq
    obtain ⟨j2, rest2, rfl⟩ := List.exists_cons_of_ne_nil hq
    simp [lastAt, h]
  have hname : nameAt dir (i :: j :: rest) = nameAt item.children (j :: rest) := by
    simp [nameAt, entryAt, h]
  unfold lineText
  rw [hlast _ (by simp), hname]
  have hlen : (i :: j :: rest).length - 1 = ((j :: rest).length - 1) + 1 := by simp
  rw [hlen, List.range_succ_eq_map, List.map_cons, join_cons, List.map_map]
  have h0 : lastAt minimatch options dir ((i :: j :: rest).take (0 + 1))
      = isLastVisible minimatch options dir i := by
    simp [lastAt, h]
  rw [h0]
  have hmap : (List.range ((j :: rest).length - 1)).map
        ((fun k => segment (lastAt minimatch options dir ((i :: j :: rest).take (k + 1))))
          ∘ Nat.succ)
      = (List.range ((j :: rest).length - 1)).map
        (fun k => segment (lastAt minimatch options item.children ((j :: rest).take (k + 1)))) := by
    apply List.map_congr_left
    intro k _
    simp only [Function.comp, Nat.succ_eq_add_one, List.take_succ_cons]
    rw [hlast _ (by simp)]
  rw [hmap]
  simp [String.append_assoc]

theorem all_not_eq_filter_length (p : Entry → Bool) (l : List Entry) :
    l.all (fun item => !p item) = ((l.filter p).length == 0) := by
  induction l with
  | nil => simp
  | cons a l ih =>
    by_cases ha : p a = true
    · simp [List.filter_cons_of_pos ha, ha]
    · simp only [Bool.not_eq_true] at ha
      rw [List.all_cons, ih]
      simp [ha]

theorem isLast_index_eq (minimatch : String → String → Bool) (options : Options)
    (done rest : List Entry) (item : Entry) (hv : isVisible minimatch options item = true) :
    ((done.filter (isVisible minimatch options)).length
        == ((done ++ item :: rest).filter (isVisible minimatch options)).length - 1)
      = isLastVisible minimatch options (done ++ item :: rest) done.length := by
  unfold isLastVisible
  have hdrop : (done ++ item :: rest).drop (done.length + 1) = rest := by
    rw [List.drop_append_eq_append_drop]
    simp
  rw [hdrop, all_not_eq_filter_length, List.filter_append, List.filter_cons_of_pos hv]
  simp only [List.length_append, List.length_cons]
  rw [Bool.eq_iff_iff]
  simp only [beq_iff_eq]
  omega

/-- The block of a filtered item is its line followed by the lines of the positions below it. -/
theorem block_eq_lines (minimatch : String → String → Bool) (dir : List Entry)
    (options : Options)
    (IH : ∀ name children, Entry.dir name children ∈ dir → ∀ indent depth,
      getDirectoryStructure minimatch children options indent depth =
        String.join ((renderedPositions minimatch options depth children).map
          (fun pos => indent ++ lineText minimatch options children pos)))
    (indent : String) (depth : Nat) (i : Nat) (item : Entry) (h : dir[i]? = some item) :
    block minimatch options indent depth (isLastVisible minimatch options dir i) item =
      (indent ++ lineText minimatch options dir [i])
        ++ String.join ((shownUnder minimatch options depth item).map
            (fun pos => indent ++ lineText minimatch options dir (i :: pos))) := by
  rw [lineText_single minimatch options dir i item h]
  cases item with
  | file name =>
    simp [block, expansion, shownUnder_file, join_nil, Entry.name, String.append_assoc]
  | dir name children =>
    have hmem : Entry.dir name children ∈ dir := by
      obtain ⟨hlt, heq⟩ := List.getElem?_eq_some_iff.mp h
      rw [← heq]
      exact List.getElem_mem hlt
    rw [shownUnder_dir]
    simp only [block, expansion]
    by_cases hd : mayDescend options depth = true
    · rw [if_pos hd, if_pos hd, IH name children hmem]
      have hmap : (renderedPositions minimatch options (depth + 1) children).map
            (fun pos => indent ++ segment (isLastVisible minimatch options dir i)
              ++ lineText minimatch options children pos)
          = (renderedPositions minimatch options (depth + 1) children).map
            (fun pos => indent ++ lineText minimatch options dir (i :: pos)) := by
        apply List.map_congr_left
        intro pos hpos
        have hne := ne_nil_of_mem_shownFrom minimatch options (depth + 1) children 0 pos hpos
        rw [lineText_cons minimatch options dir i _ h pos hne]
        simp [Entry.children, String.append_assoc]
      rw [hmap]
      simp [Entry.name, String.append_assoc]
    · rw [if_neg hd, if_neg hd]
      simp [join_nil, Entry.name, String.append_assoc]

theorem join_blocks_suffix (minimatch : String → String → Bool) (dir : List Entry)
    (options : Options)
    (IH : ∀ name children, Entry.dir name children ∈ dir → ∀ indent depth,
      getDirectoryStructure minimatch children options indent depth =
        String.join ((renderedPositions minimatch options depth children).map
          (fun pos => indent ++ lineText minimatch options children pos)))
    (indent : String) (depth : Nat) (l done : List Entry) (hd : done ++ l = dir) :
    String.join (((l.filter (isVisible minimatch options)).enumFrom
        (done.filter (isVisible minimatch options)).length).map (fun x =>
          block minimatch options indent depth
            (x.1 == (dir.filter (isVisible minimatch options)).length - 1) x.2))
      = String.join ((shownFrom minimatch options depth done.length l).map
          (fun pos => indent ++ lineText minimatch options dir pos)) := by
  induction l generalizing done with
  | nil => simp [shownFrom_nil]
  | cons item rest ih =>
    have hd2 : (done ++ [item]) ++ rest = dir := by simpa using hd
    have ih2 := ih (done ++ [item]) hd2
    rw [shownFrom_cons]
    by_cases hv : isVisible minimatch options item = true
    · have hk : ((done ++ [item]).filter (isVisible minimatch options)).length
          = (done.filter (isVisible minimatch options)).length + 1 := by
        simp [List.filter_append, List.filter_cons_of_pos hv]
      have hget : dir[done.length]? = some item := by
        rw [← hd, List.getElem?_append_right (Nat.le_refl _)]
        simp
      rw [hk, List.length_append, List.length_singleton] at ih2
      rw [List.filter_cons_of_pos hv, if_pos hv, List.enumFrom_cons, List.map_cons, join_cons,
        ih2, List.cons_append, List.map_cons, join_cons, List.map_append, join_append,
        List.map_map]
      have hb := isLast_index_eq minimatch options done rest item hv
      rw [hd] at hb
      simp only []
      rw [hb, block_eq_lines minimatch dir options IH indent depth done.length item hget]
      simp only [String.append_assoc]
      rfl
    · simp only [Bool.not_eq_true] at hv
      have hk : ((done ++ [item]).filter (isVisible minimatch options)).length
          = (done.filter (isVisible minimatch options)).length := by
        simp [List.filter_append, hv]
      rw [hk, List.length_append, List.length_singleton] at ih2
      have hf : (item :: rest).filter (isVisible minimatch options)
          = rest.filter (isVisible minimatch options) := by
        simp [hv]
      rw [hf, ih2]
      simp [hv]

/-- The output is the concatenation of the lines of the rendered positions, in order, each
preceded by the initial indent. -/
theorem getDirectoryStructure_eq_join_lines (minimatch : String → String → Bool)
    (dir : List Entry) (options : Options) :
    ∀ (indent : String) (depth : Nat),
      getDirectoryStructure minimatch dir options indent depth =
        String.join ((renderedPositions minimatch options depth dir).map
          (fun pos => indent ++ lineText minimatch options dir pos)) := by
  induction dir using forest_induction with
  | step dir IH =>
    intro indent depth
    rw [getDirectoryStructure_eq_join]
    have h := join_blocks_suffix minimatch dir options IH indent depth dir [] (by simp)
    simpa [List.enum, renderedPositions] using h

/-! ## Which positions are rendered -/

theorem renderedPositions_nil (minimatch : String → String → Bool) (options : Options)
    (depth : Nat) : renderedPositions minimatch options depth [] = [] := by
  simp [renderedPositions, shownFrom_nil]

theorem mem_shownUnder_iff (minimatch : String → String → Bool) (options : Options)
    (depth : Nat) (item : Entry) (pos : List Nat) :
    pos ∈ shownUnder minimatch options depth item ↔
      mayDescend options depth = true
        ∧ pos ∈ renderedPositions minimatch options (depth + 1) item.children := by
  cases item with
  | file name => simp [shownUnder_file, Entry.children, renderedPositions_nil]
  | dir name children =>
    rw [shownUnder_dir]
    by_cases hd : mayDescend options depth = true
    · simp [hd, Entry.children]
    · simp [hd]

theorem mem_shownFrom_iff (minimatch : String → String → Bool) (options : Options)
    (depth : Nat) (items : List Entry) (raw : Nat) (pos : List Nat) :
    pos ∈ shownFrom minimatch options depth raw items ↔
      ∃ i item rest, items[i]? = some item ∧ isVisible minimatch options item = true
        ∧ pos = (raw + i) :: rest
        ∧ (rest = [] ∨ rest ∈ shownUnder minimatch options depth item) := by
  induction items generalizing raw with
  | nil => simp [shownFrom_nil]
  | cons a l ih =>
    rw [shownFrom_cons, List.mem_append, ih]
    constructor
    · rintro (h1 | ⟨i, item, rest, hget, hv, hpos, hrest⟩)
      · split at h1
        · rename_i hv
          rcases List.mem_cons.mp h1 with h3 | h3
          · exact ⟨0, a, [], by simp, hv, by simp [h3], Or.inl rfl⟩
          · obtain ⟨q, hq, hq2⟩ := List.mem_map.mp h3
            exact ⟨0, a, q, by simp, hv, by simp [← hq2], Or.inr hq⟩
        · simp at h1
      · refine ⟨i + 1, item, rest, by simpa using hget, hv, ?_, hrest⟩
        rw [hpos]
        congr 1
        omega
    · rintro ⟨i, item, rest, hget, hv, hpos, hrest⟩
      cases i with
      | zero =>
        left
        simp only [List.getElem?_cons_zero, Option.some.injEq] at hget
        subst hget
        rw [if_pos hv, hpos]
        rcases hrest with h | h
        · simp [h]
        · simp only [Nat.add_zero, List.mem_cons, List.cons.injEq, true_and, List.mem_map]
          right
          exact ⟨rest, h, rfl⟩
      | succ j =>
        right
        refine ⟨j, item, rest, by simpa using hget, hv, ?_, hrest⟩
        rw [hpos]
        congr 1
        omega

theorem visibleAlong_cons_cons (minimatch : String → String → Bool) (options : Options)
    (dir : List Entry) (i j : Nat) (r : List Nat) (item : Entry) (h : dir[i]? = some item) :
    visibleAlong minimatch options dir (i :: j :: r) =
      (isVisible minimatch options item
        && visibleAlong minimatch options item.children (j :: r)) := by
  conv_lhs => unfold visibleAlong
  simp only [h]

theorem mayDescend_mono (options : Options) (a b : Nat) (hab : a ≤ b)
    (h : mayDescend options b = true) : mayDescend options a = true := by
  unfold mayDescend at *
  cases hm : options.maxDepth with
  | none => rfl
  | some d =>
    rw [hm] at h
    simp only [decide_eq_true_eq] at *
    omega

/-- A position is rendered exactly when every entry along it passes the filter and the depth
test lets the traversal reach it. -/
theorem mem_renderedPositions_iff (minimatch : String → String → Bool) (options : Options)
    (dir : List Entry) :
    ∀ (depth : Nat) (pos : List Nat),
      pos ∈ renderedPositions minimatch options depth dir ↔
        visibleAlong minimatch options dir pos = true ∧ withinDepth options depth pos = true := by
  induction dir using forest_induction with
  | step dir IH =>
    intro depth pos
    unfold renderedPositions
    rw [mem_shownFrom_iff]
    constructor
    · rintro ⟨i, item, rest, hget, hv, hpos, hrest⟩
      simp only [Nat.zero_add] at hpos
      subst hpos
      cases rest with
      | nil => simp [visibleAlong, withinDepth, hget, hv]
      | cons j r =>
        rcases hrest with h | h
        · simp at h
        · rw [mem_shownUnder_iff] at h
          obtain ⟨hd, hmem⟩ := h
          cases item with
          | file name => simp [Entry.children, renderedPositions_nil] at hmem
          | dir name children =>
            have hin : Entry.dir name children ∈ dir := by
              obtain ⟨hlt, heq⟩ := List.getElem?_eq_some_iff.mp hget
              rw [← heq]
              exact List.getElem_mem hlt
            have h2 := (IH name children hin (depth + 1) (j :: r)).mp hmem
            refine ⟨by rw [visibleAlong_cons_cons _ _ _ _ _ _ _ hget, hv]; exact h2.1, ?_⟩
            have h3 := h2.2
            simp only [withinDepth, List.length_cons, Bool.or_eq_true, decide_eq_true_eq] at h3 ⊢
            right
            rcases h3 with h3 | h3
            · have hr : r.length = 0 := by omega
              simpa [hr] using hd
            · have he : depth + (r.length + 1 + 1) - 2 = depth + 1 + (r.length + 1) - 2 := by
                omega
              rw [he]
              exact h3
    · rintro ⟨hva, hwd⟩
      cases pos with
      | nil => simp [visibleAlong] at hva
      | cons i rest =>
        cases hget : dir[i]? with
        | none => simp [visibleAlong, hget] at hva
        | some item =>
          cases rest with
          | nil =>
            simp only [visibleAlong, hget] at hva
            exact ⟨i, item, [], hget, hva, by simp, Or.inl rfl⟩
          | cons j r =>
            rw [visibleAlong_cons_cons _ _ _ _ _ _ _ hget, Bool.and_eq_true] at hva
            refine ⟨i, item, j :: r, hget, hva.1, by simp, Or.inr ?_⟩
            rw [mem_shownUnder_iff]
            simp only [withinDepth, List.length_cons, Bool.or_eq_true, decide_eq_true_eq] at hwd
            have hwd2 : mayDescend options (depth + (r.length + 1 + 1) - 2) = true := by
              rcases hwd with h | h
              · omega
              · exact h
            refine ⟨mayDescend_mono options _ _ (by omega) hwd2, ?_⟩
            cases item with
            | file name => simp [Entry.children, visibleAlong] at hva
            | dir name children =>
              have hin : Entry.dir name children ∈ dir := by
                obtain ⟨hlt, heq⟩ := List.getElem?_eq_some_iff.mp hget
                rw [← heq]
                exact List.getElem_mem hlt
              apply (IH name children hin (depth + 1) (j :: r)).mpr
              refine ⟨hva.2, ?_⟩
              simp only [withinDepth, List.length_cons, Bool.or_eq_true, decide_eq_true_eq]
              right
              have he : depth + 1 + (r.length + 1) - 2 = depth + (r.length + 1 + 1) - 2 := by
                omega
              rw [he]
              exact hwd2

theorem entryAt_single (dir : List Entry) (i : Nat) : entryAt dir [i] = dir[i]? := by
  unfold entryAt
  cases dir[i]? <;> rfl

theorem entryAt_cons_cons (dir : List Entry) (i j : Nat) (r : List Nat) (item : Entry)
    (h : dir[i]? = some item) :
    entryAt dir (i :: j :: r) = entryAt item.children (j :: r) := by
  conv_lhs => unfold entryAt
  simp only [h]

theorem entryAt_cons_none (dir : List Entry) (i : Nat) (rest : List Nat)
    (h : dir[i]? = none) : entryAt dir (i :: rest) = none := by
  unfold entryAt
  simp only [h]

theorem visibleAlong_single (minimatch : String → String → Bool) (options : Options)
    (dir : List Entry) (i : Nat) (item : Entry) (h : dir[i]? = some item) :
    visibleAlong minimatch options dir [i] = isVisible minimatch options item := by
  unfold visibleAlong
  simp only [h]

theorem visibleAlong_cons_none (minimatch : String → String → Bool) (options : Options)
    (dir : List Entry) (i : Nat) (rest : List Nat) (h : dir[i]? = none) :
    visibleAlong minimatch options dir (i :: rest) = false := by
  unfold visibleAlong
  simp only [h]

/-- The recursive predicate `visibleAlong` says that the position is not empty and that at
every non-empty initial part of it the tree has an entry and this entry passes the filter. -/
theorem visibleAlong_iff (minimatch : String → String → Bool) (options : Options)
    (pos : List Nat) :
    ∀ dir : List Entry,
      visibleAlong minimatch options dir pos = true ↔
        pos ≠ [] ∧ ∀ k, k < pos.length →
          ∃ item, entryAt dir (pos.take (k + 1)) = some item
            ∧ isVisible minimatch options item = true := by
  induction pos with
  | nil => intro dir; simp [visibleAlong]
  | cons i rest ih =>
    intro dir
    cases hget : dir[i]? with
    | none =>
      rw [visibleAlong_cons_none _ _ _ _ _ hget]
      simp only [Bool.false_eq_true, ne_eq, reduceCtorEq, not_false_eq_true, true_and,
        false_iff, not_forall]
      refine ⟨0, by simp, ?_⟩
      simp [entryAt_single, hget]
    | some item =>
      cases rest with
      | nil =>
        rw [visibleAlong_single _ _ _ _ _ hget]
        constructor
        · intro hv
          refine ⟨by simp, ?_⟩
          intro k hk
          have hk0 : k = 0 := by simpa using hk
          subst hk0
          exact ⟨item, by simp [entryAt_single, hget], hv⟩
        · rintro ⟨_, h⟩
          obtain ⟨item2, h1, h2⟩ := h 0 (by simp)
          simp only [Nat.zero_add, List.take_succ_cons, List.take_zero, entryAt_single, hget,
            Option.some.injEq] at h1
          rw [h1]
          exact h2
      | cons j r =>
        rw [visibleAlong_cons_cons _ _ _ _ _ _ _ hget, Bool.and_eq_true, ih item.children]
        constructor
        · rintro ⟨hv, _, h⟩
          refine ⟨by simp, ?_⟩
          intro k hk
          cases k with
          | zero => exact ⟨item, by simp [entryAt_single, hget], hv⟩
          | succ k2 =>
            have hk2 : k2 < (j :: r).length := by simpa using hk
            obtain ⟨it, h1, h2⟩ := h k2 hk2
            refine ⟨it, ?_, h2⟩
            rw [← h1]
            simp only [List.take_succ_cons]
            exact entryAt_cons_cons dir i j _ item hget
        · intro ⟨_, h⟩
          refine ⟨?_, by simp, ?_⟩
          · obtain ⟨item2, h1, h2⟩ := h 0 (by simp)
            simp only [Nat.zero_add, List.take_succ_cons, List.take_zero, entryAt_single, hget,
              Option.some.injEq] at h1
            rw [h1]
            exact h2
          · intro k hk
            obtain ⟨it, h1, h2⟩ := h (k + 1) (by simpa using hk)
            refine ⟨it, ?_, h2⟩
            rw [← h1]
            simp only [List.take_succ_cons]
            exact (entryAt_cons_cons dir i j _ item hget).symm

/-- Along a position that passes the filter, the entry at the position exists and passes. -/
theorem entryAt_of_visibleAlong (minimatch : String → String → Bool) (options : Options)
    (dir : List Entry) (pos : List Nat)
    (h : visibleAlong minimatch options dir pos = true) :
    ∃ item, entryAt dir pos = some item ∧ isVisible minimatch options item = true := by
  obtain ⟨hne, hall⟩ := (visibleAlong_iff minimatch options pos dir).mp h
  have hlen : 0 < pos.length := List.length_pos.mpr hne
  obtain ⟨item, h1, h2⟩ := hall (pos.length - 1) (by omega)
  have ht : pos.take (pos.length - 1 + 1) = pos := by
    apply List.take_of_length_le
    omega
  rw [ht] at h1
  exact ⟨item, h1, h2⟩

/-! ## Indentation -/

theorem map_enumFrom_shift {β : Type} (post : List Entry) (m : Nat) (g : Bool → Entry → β) :
    (post.enumFrom (m + 1)).map (fun x => g (x.1 == m + post.length) x.2)
      = post.enum.map (fun x => g (x.1 == post.length - 1) x.2) := by
  rw [List.enumFrom_eq_map_enum, List.map_map]
  apply List.map_congr_left
  intro x hx
  have hlt := List.fst_lt_of_mem_enum hx
  have hb : (x.1 + (m + 1) == m + post.length) = (x.1 == post.length - 1) := by
    rw [Bool.eq_iff_iff]
    simp only [beq_iff_eq]
    omega
  simp only [Function.comp, Prod.map_fst, Prod.map_snd, id_eq]
  rw [hb]

/-- In a listing, an item that passes the filter has no filtered item after it exactly when
the filtered list is the filtered part of the listing before the item followed by the item:
`isLastVisible` is being the last item of the filtered list. -/
theorem isLastVisible_iff (minimatch : String → String → Bool) (options : Options)
    (dir : List Entry) (i : Nat) (item : Entry) (h : dir[i]? = some item)
    (hv : isVisible minimatch options item = true) :
    isLastVisible minimatch options dir i = true ↔
      dir.filter (isVisible minimatch options)
        = (dir.take i).filter (isVisible minimatch options) ++ [item] := by
  obtain ⟨hlt, heq⟩ := List.getElem?_eq_some_iff.mp h
  have hsplit : dir = dir.take i ++ item :: dir.drop (i + 1) := by
    rw [← heq]
    simp
  unfold isLastVisible
  rw [all_not_eq_filter_length]
  conv_rhs => lhs; rw [hsplit]
  rw [List.filter_append, List.filter_cons_of_pos hv]
  simp only [beq_iff_eq, List.length_eq_zero, List.append_cancel_left_eq, List.cons.injEq,
    true_and]

/-- C2. (1) When the filtered list is `pre ++ dir name children :: post` and the depth test
passes, the output is the blocks of `pre`, then the line of the directory, then directly the
recursive call on its listing with the indent extended by `"    "` if the directory is the last
filtered item (`post` empty) and by `"│   "` otherwise, at depth `depth + 1`, then the blocks
of `post`. (2) Called with indent `""` and depth 0, the output is the concatenation over the
rendered positions of: one segment per ancestor below the root (a position of length `k + 1`
has `k` of them), the `i`-th being `segment` of whether the `i`-th ancestor is the last item of
its filtered list, then the connector, the name and a newline. (3) A segment has four
characters, `"    "` for a last item and `"│   "` otherwise. -/
theorem indent_follows_ancestors (minimatch : String → String → Bool) (dir : List Entry)
    (options : Options) :
    (∀ (indent : String) (depth : Nat) (pre : List Entry) (name : String)
        (children post : List Entry),
      dir.filter (isVisible minimatch options) = pre ++ Entry.dir name children :: post →
      mayDescend options depth = true →
      getDirectoryStructure minimatch dir options indent depth =
        String.join (pre.map (block minimatch options indent depth false))
        ++ ((indent ++ (if post.isEmpty then "└── " else "├── ") ++ name ++ "\n")
          ++ getDirectoryStructure minimatch children options
              (indent ++ (if post.isEmpty then "    " else "│   ")) (depth + 1))
        ++ String.join (post.enum.map (fun x =>
            block minimatch options indent depth (x.1 == post.length - 1) x.2)))
    ∧ getDirectoryStructure minimatch dir options "" 0 =
        String.join ((renderedPositions minimatch options 0 dir).map (fun pos =>
          String.join ((List.range (pos.length - 1)).map (fun k =>
            segment (lastAt minimatch options dir (pos.take (k + 1)))))
          ++ connector (lastAt minimatch options dir pos) ++ nameAt dir pos ++ "\n"))
    ∧ (segment true = "    " ∧ segment false = "│   "
        ∧ ∀ isLast, (segment isLast).length = 4) := by
  refine ⟨?_, ?_, rfl, rfl, ?_⟩
  · intro indent depth pre name children post hf hd
    rw [getDirectoryStructure_eq_join, hf, List.enum_append, List.map_append, join_append,
      List.enumFrom_cons, List.map_cons, join_cons]
    have hlen : (pre ++ Entry.dir name children :: post).length - 1
        = pre.length + post.length := by
      simp
    rw [hlen, map_enum_of_lt pre (pre.length + post.length) (Nat.le_add_right _ _)
      (fun b item => block minimatch options indent depth b item),
      map_enumFrom_shift post pre.length
      (fun b item => block minimatch options indent depth b item)]
    have hb : (pre.length == pre.length + post.length) = post.isEmpty := by
      cases post <;> simp
    have hblock : block minimatch options indent depth post.isEmpty (Entry.dir name children)
        = (indent ++ (if post.isEmpty then "└── " else "├── ") ++ name ++ "\n")
          ++ getDirectoryStructure minimatch children options
              (indent ++ (if post.isEmpty then "    " else "│   ")) (depth + 1) := by
      simp only [block, expansion, connector, segment, Entry.name, if_pos hd]
    simp only [hb]
    rw [hblock]
    simp only [String.append_assoc]
  · have h := getDirectoryStructure_eq_join_lines minimatch dir options "" 0
    rw [h]
    simp [lineText]
  · intro isLast
    cases isLast <;> decide

/-- C2 on a tree with two visible directories, the first of which has a child. -/
theorem indent_follows_ancestors_witness :
    [Entry.dir "src" [Entry.dir "x" []], Entry.dir "lib" []].filter
        (isVisible (fun _ _ => false) ⟨[], [], false, none⟩)
      = [] ++ Entry.dir "src" [Entry.dir "x" []] :: [Entry.dir "lib" []]
    ∧ mayDescend ⟨[], [], false, none⟩ 0 = true
    ∧ getDirectoryStructure (fun _ _ => false)
        [Entry.dir "src" [Entry.dir "x" []], Entry.dir "lib" []] ⟨[], [], false, none⟩ "" 0 =
      String.join (([] : List Entry).map
          (block (fun _ _ => false) ⟨[], [], false, none⟩ "" 0 false))
        ++ (("" ++ (if [Entry.dir "lib" []].isEmpty then "└── " else "├── ") ++ "src" ++ "\n")
          ++ getDirectoryStructure (fun _ _ => false) [Entry.dir "x" []] ⟨[], [], false, none⟩
              ("" ++ (if [Entry.dir "lib" []].isEmpty then "    " else "│   ")) (0 + 1))
        ++ String.join ([Entry.dir "lib" []].enum.map (fun x =>
            block (fun _ _ => false) ⟨[], [], false, none⟩ "" 0
              (x.1 == [Entry.dir "lib" []].length - 1) x.2)) :=
  ⟨rfl, rfl, (indent_follows_ancestors (fun _ _ => false)
    [Entry.dir "src" [Entry.dir "x" []], Entry.dir "lib" []] ⟨[], [], false, none⟩).1
    "" 0 [] "src" [Entry.dir "x" []] [Entry.dir "lib" []] rfl rfl⟩

/-! ## Filtering and depth -/

theorem isVisible_file (minimatch : String → String → Bool) (options : Options)
    (name : String) :
    isVisible minimatch options (.file name) =
      (!options.excludeFiles.any (fun p => minimatch name p) && options.includeFiles) := by
  unfold isVisible
  simp only [Entry.isDirectory, Entry.name]
  cases options.excludeFiles.any (fun p => minimatch name p) <;>
    cases options.includeFiles <;> simp

theorem isVisible_dir (minimatch : String → String → Bool) (options : Options)
    (name : String) (children : List Entry) :
    isVisible minimatch options (.dir name children) =
      !options.excludeDirs.any (fun p => minimatch name p) := by
  unfold isVisible
  simp only [Entry.isDirectory, Entry.name]
  cases options.excludeDirs.any (fun p => minimatch name p) <;> simp

/-- C3. With `includeFiles = false` the output is the concatenation of the lines of the
rendered positions, and the entry at every rendered position is a directory whose name is the
name on the line: no line stands for a file, whatever the other options are. -/
theorem no_file_line_without_includeFiles (minimatch : String → String → Bool)
    (dir : List Entry) (options : Options) (indent : String) (depth : Nat)
    (h : options.includeFiles = false) :
    getDirectoryStructure minimatch dir options indent depth =
        String.join ((renderedPositions minimatch options depth dir).map
          (fun pos => indent ++ lineText minimatch options dir pos))
    ∧ ∀ pos ∈ renderedPositions minimatch options depth dir,
        ∃ name children, entryAt dir pos = some (Entry.dir name children)
          ∧ nameAt dir pos = name := by
  refine ⟨getDirectoryStructure_eq_join_lines minimatch dir options indent depth, ?_⟩
  intro pos hpos
  have hva := ((mem_renderedPositions_iff minimatch options dir depth pos).mp hpos).1
  obtain ⟨item, h1, h2⟩ := entryAt_of_visibleAlong minimatch options dir pos hva
  cases item with
  | file name =>
    rw [isVisible_file, h] at h2
    simp at h2
  | dir name children => exact ⟨name, children, h1, by simp [nameAt, h1, Entry.name]⟩

/-- C3 on a listing with a directory and a file. -/
theorem no_file_line_without_includeFiles_witness :
    (Options.mk [] [] false none).includeFiles = false
    ∧ (getDirectoryStructure glob [Entry.dir "src" [Entry.file "app.js"], Entry.file "readme.txt"]
          ⟨[], [], false, none⟩ "" 0 =
        String.join ((renderedPositions glob ⟨[], [], false, none⟩ 0
            [Entry.dir "src" [Entry.file "app.js"], Entry.file "readme.txt"]).map
          (fun pos => "" ++ lineText glob ⟨[], [], false, none⟩
            [Entry.dir "src" [Entry.file "app.js"], Entry.file "readme.txt"] pos))
      ∧ ∀ pos ∈ renderedPositions glob ⟨[], [], false, none⟩ 0
            [Entry.dir "src" [Entry.file "app.js"], Entry.file "readme.txt"],
          ∃ name children,
            entryAt [Entry.dir "src" [Entry.file "app.js"], Entry.file "readme.txt"] pos
              = some (Entry.dir name children)
            ∧ nameAt [Entry.dir "src" [Entry.file "app.js"], Entry.file "readme.txt"] pos
              = name) :=
  ⟨rfl, no_file_line_without_includeFiles glob
    [Entry.dir "src" [Entry.file "app.js"], Entry.file "readme.txt"]
    ⟨[], [], false, none⟩ "" 0 rfl⟩

/-- C4. With `maxDepth = d`, in a call at depth 0 (positions of length 1 are the children of
the root): the output is the concatenation of the lines of the rendered positions; every
rendered position has length at most `d + 1`; every position of length at most `d + 1` along
which all entries pass the filter is rendered, those of length `d + 1` included; and no child
of a position of length `d + 1` is rendered. -/
theorem maxDepth_bounds_rendered_levels (minimatch : String → String → Bool)
    (dir : List Entry) (options : Options) (indent : String) (d : Nat)
    (h : options.maxDepth = some d) :
    getDirectoryStructure minimatch dir options indent 0 =
        String.join ((renderedPositions minimatch options 0 dir).map
          (fun pos => indent ++ lineText minimatch options dir pos))
    ∧ (∀ pos ∈ renderedPositions minimatch options 0 dir, pos.length ≤ d + 1)
    ∧ (∀ pos, visibleAlong minimatch options dir pos = true → pos.length ≤ d + 1 →
        pos ∈ renderedPositions minimatch options 0 dir)
    ∧ (∀ pos i, pos.length = d + 1 →
        pos ++ [i] ∉ renderedPositions minimatch options 0 dir) := by
  have hwd : ∀ pos : List Nat, pos ≠ [] →
      (withinDepth options 0 pos = true ↔ pos.length ≤ d + 1) := by
    intro pos hne
    have hlen : 0 < pos.length := List.length_pos.mpr hne
    simp only [withinDepth, mayDescend, h, Bool.or_eq_true, decide_eq_true_eq]
    omega
  have hbound : ∀ pos ∈ renderedPositions minimatch options 0 dir, pos.length ≤ d + 1 := by
    intro pos hpos
    have hne := ne_nil_of_mem_shownFrom minimatch options 0 dir 0 pos hpos
    exact (hwd pos hne).mp ((mem_renderedPositions_iff minimatch options dir 0 pos).mp hpos).2
  refine ⟨getDirectoryStructure_eq_join_lines minimatch dir options indent 0, hbound, ?_, ?_⟩
  · intro pos hva hlen
    have hne : pos ≠ [] := ((visibleAlong_iff minimatch options pos dir).mp hva).1
    exact (mem_renderedPositions_iff minimatch options dir 0 pos).mpr
      ⟨hva, (hwd pos hne).mpr hlen⟩
  · intro pos i hlen hmem
    have := hbound _ hmem
    simp only [List.length_append, List.length_singleton] at this
    omega

/-- C4 with `maxDepth = 1` on the chain `a/b/c`. -/
theorem maxDepth_bounds_rendered_levels_witness :
    (Options.mk [] [] false (some 1)).maxDepth = some 1
    ∧ (getDirectoryStructure glob [Entry.dir "a" [Entry.dir "b" [Entry.dir "c" []]]]
          ⟨[], [], false, some 1⟩ "" 0 =
        String.join ((renderedPositions glob ⟨[], [], false, some 1⟩ 0
            [Entry.dir "a" [Entry.dir "b" [Entry.dir "c" []]]]).map
          (fun pos => "" ++ lineText glob ⟨[], [], false, some 1⟩
            [Entry.dir "a" [Entry.dir "b" [Entry.dir "c" []]]] pos))
      ∧ (∀ pos ∈ renderedPositions glob ⟨[], [], false, some 1⟩ 0
            [Entry.dir "a" [Entry.dir "b" [Entry.dir "c" []]]], pos.length ≤ 1 + 1)
      ∧ (∀ pos, visibleAlong glob ⟨[], [], false, some 1⟩
            [Entry.dir "a" [Entry.dir "b" [Entry.dir "c" []]]] pos = true →
          pos.length ≤ 1 + 1 →
          pos ∈ renderedPositions glob ⟨[], [], false, some 1⟩ 0
            [Entry.dir "a" [Entry.dir "b" [Entry.dir "c" []]]])
      ∧ (∀ pos i, pos.length = 1 + 1 →
          pos ++ [i] ∉ renderedPositions glob ⟨[], [], false, some 1⟩ 0
            [Entry.dir "a" [Entry.dir "b" [Entry.dir "c" []]]])) :=
  ⟨rfl, maxDepth_bounds_rendered_levels glob [Entry.dir "a" [Entry.dir "b" [Entry.dir "c" []]]]
    ⟨[], [], false, some 1⟩ "" 1 rfl⟩

/-- C5. With `maxDepth = 0` the call `getDirectoryStructure(root, options)` (indent `""`,
depth 0) returns exactly one unindented line `connector ++ name ++ "\n"` per item of the
filtered list of the root, in the order of that list, and nothing else: no directory is
expanded, and the children of the root are listed. -/
theorem maxDepth_zero_lists_root_children (minimatch : String → String → Bool)
    (dir : List Entry) (options : Options) (h : options.maxDepth = some 0) :
    getDirectoryStructure minimatch dir options "" 0 =
      String.join ((dir.filter (isVisible minimatch options)).enum.map (fun x =>
        (if x.1 == (dir.filter (isVisible minimatch options)).length - 1
          then "└── " else "├── ") ++ x.2.name ++ "\n")) := by
  rw [getDirectoryStructure_eq_join]
  congr 1
  apply List.map_congr_left
  intro x _
  have hd : mayDescend options 0 = false := by simp [mayDescend, h]
  cases hx : x.2 with
  | file name => simp [block, expansion, connector]
  | dir name children => simp [block, expansion, connector, hd]

/-- C5 on the tree `a/b`: only `a` is listed (the right-hand side is `"└── a\n"`). -/
theorem maxDepth_zero_lists_root_children_witness :
    (Options.mk [] [] false (some 0)).maxDepth = some 0
    ∧ getDirectoryStructure glob [Entry.dir "a" [Entry.dir "b" []]]
        ⟨[], [], false, some 0⟩ "" 0 =
      String.join (([Entry.dir "a" [Entry.dir "b" []]].filter
          (isVisible glob ⟨[], [], false, some 0⟩)).enum.map (fun x =>
        (if x.1 == ([Entry.dir "a" [Entry.dir "b" []]].filter
            (isVisible glob ⟨[], [], false, some 0⟩)).length - 1
          then "└── " else "├── ") ++ x.2.name ++ "\n")) :=
  ⟨rfl, maxDepth_zero_lists_root_children glob [Entry.dir "a" [Entry.dir "b" []]]
    ⟨[], [], false, some 0⟩ rfl⟩

/-- C6. For a pattern `p` of `excludeDirs`, the output is the concatenation of the lines of the
rendered positions and no rendered position, at any depth, holds a directory whose name
matches `p`. -/
theorem excluded_dir_never_rendered (minimatch : String → String → Bool)
    (dir : List Entry) (options : Options) (indent : String) (depth : Nat) (p : String)
    (hp : p ∈ options.excludeDirs) :
    getDirectoryStructure minimatch dir options indent depth =
        String.join ((renderedPositions minimatch options depth dir).map
          (fun pos => indent ++ lineText minimatch options dir pos))
    ∧ ∀ pos ∈ renderedPositions minimatch options depth dir,
        ∀ name children, entryAt dir pos = some (Entry.dir name children) →
          minimatch name p = false := by
  refine ⟨getDirectoryStructure_eq_join_lines minimatch dir options indent depth, ?_⟩
  intro pos hpos name children hentry
  have hva := ((mem_renderedPositions_iff minimatch options dir depth pos).mp hpos).1
  obtain ⟨item, h1, h2⟩ := entryAt_of_visibleAlong minimatch options dir pos hva
  rw [hentry] at h1
  simp only [Option.some.injEq] at h1
  subst h1
  rw [isVisible_dir] at h2
  simp only [Bool.not_eq_true', List.any_eq_false, Bool.not_eq_true] at h2
  exact h2 p hp

/-- C6 with the pattern `node_*` on a listing holding `node_modules`. -/
theorem excluded_dir_never_rendered_witness :
    "node_*" ∈ (Options.mk ["node_*", ".git"] [] false none).excludeDirs
    ∧ (getDirectoryStructure glob
          [Entry.dir "src" [Entry.dir "node_modules" []], Entry.dir "node_modules" []]
          ⟨["node_*", ".git"], [], false, none⟩ "" 0 =
        String.join ((renderedPositions glob ⟨["node_*", ".git"], [], false, none⟩ 0
            [Entry.dir "src" [Entry.dir "node_modules" []], Entry.dir "node_modules" []]).map
          (fun pos => "" ++ lineText glob ⟨["node_*", ".git"], [], false, none⟩
            [Entry.dir "src" [Entry.dir "node_modules" []], Entry.dir "node_modules" []] pos))
      ∧ ∀ pos ∈ renderedPositions glob ⟨["node_*", ".git"], [], false, none⟩ 0
            [Entry.dir "src" [Entry.dir "node_modules" []], Entry.dir "node_modules" []],
          ∀ name children,
            entryAt [Entry.dir "src" [Entry.dir "node_modules" []], Entry.dir "node_modules" []]
              pos = some (Entry.dir name children) →
            glob name "node_*" = false) :=
  ⟨by decide, excluded_dir_never_rendered glob
    [Entry.dir "src" [Entry.dir "node_modules" []], Entry.dir "node_modules" []]
    ⟨["node_*", ".git"], [], false, none⟩ "" 0 "node_*" (by decide)⟩

/-- C7. With `includeFiles = true`, a file among the children of the rendered directory has a
line (its position is rendered) exactly when its name matches no pattern of `excludeFiles`,
and at no depth does a rendered file match a pattern; the output is the concatenation of the
lines of the rendered positions. -/
theorem rendered_files_are_unexcluded_files (minimatch : String → String → Bool)
    (dir : List Entry) (options : Options) (indent : String) (depth : Nat)
    (h : options.includeFiles = true) :
    getDirectoryStructure minimatch dir options indent depth =
        String.join ((renderedPositions minimatch options depth dir).map
          (fun pos => indent ++ lineText minimatch options dir pos))
    ∧ (∀ i name, dir[i]? = some (Entry.file name) →
        ([i] ∈ renderedPositions minimatch options depth dir ↔
          ∀ p ∈ options.excludeFiles, minimatch name p = false))
    ∧ (∀ pos ∈ renderedPositions minimatch options depth dir,
        ∀ name, entryAt dir pos = some (Entry.file name) →
          ∀ p ∈ options.excludeFiles, minimatch name p = false) := by
  refine ⟨getDirectoryStructure_eq_join_lines minimatch dir options indent depth, ?_, ?_⟩
  · intro i name hget
    rw [mem_renderedPositions_iff, visibleAlong_single _ _ _ _ _ hget, isVisible_file, h]
    simp [withinDepth]
  · intro pos hpos name hentry
    have hva := ((mem_renderedPositions_iff minimatch options dir depth pos).mp hpos).1
    obtain ⟨item, h1, h2⟩ := entryAt_of_visibleAlong minimatch options dir pos hva
    rw [hentry] at h1
    simp only [Option.some.injEq] at h1
    subst h1
    rw [isVisible_file, h] at h2
    simpa using h2

/-- C7 on the scenario of the test: `app.js`, `app.test.js`, `style.css` with the pattern
`*.test.js`. -/
theorem rendered_files_are_unexcluded_files_witness :
    (Options.mk [] ["*.test.js"] true none).includeFiles = true
    ∧ (getDirectoryStructure glob
          [Entry.file "app.js", Entry.file "app.test.js", Entry.file "style.css"]
          ⟨[], ["*.test.js"], true, none⟩ "" 0 =
        String.join ((renderedPositions glob ⟨[], ["*.test.js"], true, none⟩ 0
            [Entry.file "app.js", Entry.file "app.test.js", Entry.file "style.css"]).map
          (fun pos => "" ++ lineText glob ⟨[], ["*.test.js"], true, none⟩
            [Entry.file "app.js", Entry.file "app.test.js", Entry.file "style.css"] pos))
      ∧ ∀ i name,
          [Entry.file "app.js", Entry.file "app.test.js", Entry.file "style.css"][i]?
            = some (Entry.file name) →
          ([i] ∈ renderedPositions glob ⟨[], ["*.test.js"], true, none⟩ 0
              [Entry.file "app.js", Entry.file "app.test.js", Entry.file "style.css"] ↔
            ∀ p ∈ (Options.mk [] ["*.test.js"] true none).excludeFiles,
              glob name p = false)) :=
  ⟨rfl,
    (rendered_files_are_unexcluded_files glob
      [Entry.file "app.js", Entry.file "app.test.js", Entry.file "style.css"]
      ⟨[], ["*.test.js"], true, none⟩ "" 0 rfl).1,
    (rendered_files_are_unexcluded_files glob
      [Entry.file "app.js", Entry.file "app.test.js", Entry.file "style.css"]
      ⟨[], ["*.test.js"], true, none⟩ "" 0 rfl).2.1⟩

/-- The scenario of C7 evaluated: exactly `app.js` and `style.css` are rendered. -/
theorem exclude_files_scenario :
    getDirectoryStructure glob
        [Entry.file "app.js", Entry.file "app.test.js", Entry.file "style.css"]
        ⟨[], ["*.test.js"], true, none⟩ "" 0
      = "├── app.js\n└── style.css\n" := by
  rw [getDirectoryStructure_eq_join_lines]
  decide

/-! ## Empty output and the final newline -/

theorem connector_length (isLast : Bool) : (connector isLast).length = 4 := by
  cases isLast <;> decide

theorem block_ne_empty (minimatch : String → String → Bool) (options : Options)
    (indent : String) (depth : Nat) (isLast : Bool) (item : Entry) (rest : String) :
    block minimatch options indent depth isLast item ++ rest ≠ "" := by
  intro h
  have hl := congrArg String.length h
  simp only [block, String.length_append, connector_length] at hl
  have h0 : ("" : String).length = 0 := rfl
  omega

/-- C8. The result is the empty string exactly when the filtered list of the directory is
empty; so it is for an empty directory, and for a directory holding only files when
`includeFiles` is false; and a result that is not empty ends with a newline. -/
theorem empty_iff_filtered_list_empty (minimatch : String → String → Bool)
    (dir : List Entry) (options : Options) (indent : String) (depth : Nat) :
    (getDirectoryStructure minimatch dir options indent depth = "" ↔
        dir.filter (isVisible minimatch options) = [])
    ∧ getDirectoryStructure minimatch [] options indent depth = ""
    ∧ (options.includeFiles = false → (∀ item ∈ dir, item.isDirectory = false) →
        getDirectoryStructure minimatch dir options indent depth = "")
    ∧ (getDirectoryStructure minimatch dir options indent depth ≠ "" →
        ∃ t, getDirectoryStructure minimatch dir options indent depth = t ++ "\n") := by
  have hiff : ∀ l : List Entry, getDirectoryStructure minimatch l options indent depth = "" ↔
      l.filter (isVisible minimatch options) = [] := by
    intro l
    rw [getDirectoryStructure_eq_join]
    constructor
    · intro h
      cases hf : l.filter (isVisible minimatch options) with
      | nil => rfl
      | cons a rest =>
        rw [hf] at h
        simp only [List.enum_cons, List.map_cons, join_cons] at h
        exact absurd h (block_ne_empty _ _ _ _ _ _ _)
    · intro h
      rw [h]
      rfl
  refine ⟨hiff dir, (hiff []).mpr rfl, ?_, ?_⟩
  · intro hinc hfiles
    apply (hiff dir).mpr
    rw [List.filter_eq_nil_iff]
    intro item hitem
    have hd := hfiles item hitem
    cases item with
    | file name => simp [isVisible_file, hinc]
    | dir name children => simp [Entry.isDirectory] at hd
  · rw [getDirectoryStructure_eq_join_lines]
    intro hne
    rcases List.eq_nil_or_concat (renderedPositions minimatch options depth dir) with h | h
    · rw [h] at hne
      exact absurd rfl hne
    · obtain ⟨L, pos, h⟩ := h
      rw [h, List.concat_eq_append, List.map_append, join_append]
      refine ⟨String.join (L.map (fun pos => indent ++ lineText minimatch options dir pos))
        ++ (indent ++ (String.join ((List.range (pos.length - 1)).map (fun k =>
            segment (lastAt minimatch options dir (pos.take (k + 1)))))
          ++ connector (lastAt minimatch options dir pos) ++ nameAt dir pos)), ?_⟩
      simp [lineText, join_cons, join_nil, String.append_assoc]

/-- C8 on a directory holding only files, `includeFiles` being false. -/
theorem empty_iff_filtered_list_empty_witness :
    (Options.mk [] [] false none).includeFiles = false
    ∧ (∀ item ∈ [Entry.file "a.txt", Entry.file "b.txt"], item.isDirectory = false)
    ∧ getDirectoryStructure glob [Entry.file "a.txt", Entry.file "b.txt"]
        ⟨[], [], false, none⟩ "" 0 = "" :=
  ⟨rfl, by simp [Entry.isDirectory],
    (empty_iff_filtered_list_empty glob [Entry.file "a.txt", Entry.file "b.txt"]
      ⟨[], [], false, none⟩ "" 0).2.2.1 rfl (by simp [Entry.isDirectory])⟩

/-! ## Unlimited depth -/

theorem nodup_shownFrom (minimatch : String → String → Bool) (options : Options)
    (depth : Nat) (items : List Entry)
    (IH : ∀ name children, Entry.dir name children ∈ items → ∀ depth,
      (renderedPositions minimatch options depth children).Nodup) :
    ∀ raw, (shownFrom minimatch options depth raw items).Nodup := by
  induction items with
  | nil => intro raw; simp [shownFrom_nil]
  | cons a l ih =>
    intro raw
    rw [shownFrom_cons]
    have hl := ih (fun name children hmem => IH name children (List.mem_cons_of_mem _ hmem))
      (raw + 1)
    have hunder : (shownUnder minimatch options depth a).Nodup := by
      cases a with
      | file name => simp [shownUnder_file]
      | dir name children =>
        rw [shownUnder_dir]
        split
        · exact IH name children (List.mem_cons_self _ _) (depth + 1)
        · exact List.nodup_nil
    apply List.Nodup.append _ hl
    · intro pos h1 h2
      obtain ⟨i, item, rest, _, _, hpos, _⟩ :=
        (mem_shownFrom_iff minimatch options depth l (raw + 1) pos).mp h2
      subst hpos
      split at h1
      · rcases List.mem_cons.mp h1 with h3 | h3
        · simp only [List.cons.injEq] at h3
          omega
        · obtain ⟨q, _, hq⟩ := List.mem_map.mp h3
          simp only [List.cons.injEq] at hq
          omega
      · simp at h1
    · split
      · rw [List.nodup_cons]
        constructor
        · intro hmem
          obtain ⟨q, hq1, hq⟩ := List.mem_map.mp hmem
          simp only [List.cons.injEq, true_and] at hq
          have hq2 := ((mem_shownUnder_iff minimatch options depth a q).mp hq1).2
          exact ne_nil_of_mem_shownFrom minimatch options (depth + 1) a.children 0 q hq2 hq
        · apply List.Nodup.map _ hunder
          intro x y hxy
          simpa using hxy
      · exact List.nodup_nil

/-- No position is rendered twice. -/
theorem nodup_renderedPositions (minimatch : String → String → Bool) (options : Options)
    (dir : List Entry) : ∀ depth, (renderedPositions minimatch options depth dir).Nodup := by
  induction dir using forest_induction with
  | step dir IH =>
    intro depth
    exact nodup_shownFrom minimatch options depth dir IH 0

theorem entryAt_nil_listing (pos : List Nat) : entryAt [] pos = none := by
  cases pos with
  | nil => rfl
  | cons i rest => exact entryAt_cons_none [] i rest (by simp)

/-- The proper ancestors of an entry of the tree are directories. -/
theorem ancestors_are_directories (pos : List Nat) :
    ∀ (dir : List Entry) (item : Entry), entryAt dir pos = some item →
      ∀ k, k + 1 < pos.length →
        ∃ name children, entryAt dir (pos.take (k + 1)) = some (Entry.dir name children) := by
  induction pos with
  | nil => intro dir item h; simp [entryAt] at h
  | cons i rest ih =>
    intro dir item h k hk
    cases hget : dir[i]? with
    | none => rw [entryAt_cons_none dir i rest hget] at h; simp at h
    | some parent =>
      cases rest with
      | nil => simp at hk
      | cons j r =>
        rw [entryAt_cons_cons dir i j r parent hget] at h
        cases parent with
        | file name =>
          rw [Entry.children, entryAt_nil_listing] at h
          simp at h
        | dir name children =>
          cases k with
          | zero => exact ⟨name, children, by simp [entryAt_single, hget]⟩
          | succ k2 =>
            have hk2 : k2 + 1 < (j :: r).length := by simpa using hk
            obtain ⟨n2, c2, h2⟩ := ih children item h k2 hk2
            refine ⟨n2, c2, ?_⟩
            rw [← h2]
            simp only [List.take_succ_cons]
            exact entryAt_cons_cons dir i j _ _ hget

/-- C9. With `maxDepth = null` (at any depth argument): the output is the concatenation of the
lines of the rendered positions; no position is rendered twice; a position is rendered exactly
when it is not empty and at each of its non-empty initial parts the tree has an entry that
passes the filter (the entry itself and each ancestor below the root); with no `excludeDirs`
pattern every directory of the tree is rendered; and nothing at or beneath an entry that fails
the filter is rendered. -/
theorem unlimited_depth_renders_every_visible_entry (minimatch : String → String → Bool)
    (dir : List Entry) (options : Options) (indent : String) (depth : Nat)
    (h : options.maxDepth = none) :
    getDirectoryStructure minimatch dir options indent depth =
        String.join ((renderedPositions minimatch options depth dir).map
          (fun pos => indent ++ lineText minimatch options dir pos))
    ∧ (renderedPositions minimatch options depth dir).Nodup
    ∧ (∀ pos, pos ∈ renderedPositions minimatch options depth dir ↔
        pos ≠ [] ∧ ∀ k, k < pos.length →
          ∃ item, entryAt dir (pos.take (k + 1)) = some item
            ∧ isVisible minimatch options item = true)
    ∧ (options.excludeDirs = [] → ∀ pos name children,
        entryAt dir pos = some (Entry.dir name children) →
          pos ∈ renderedPositions minimatch options depth dir)
    ∧ (∀ pos item, entryAt dir pos = some item → isVisible minimatch options item = false →
        ∀ below, pos ++ below ∉ renderedPositions minimatch options depth dir) := by
  have hwd : ∀ pos, withinDepth options depth pos = true := by
    intro pos
    simp [withinDepth, mayDescend, h]
  have hmem : ∀ pos, pos ∈ renderedPositions minimatch options depth dir ↔
      pos ≠ [] ∧ ∀ k, k < pos.length →
        ∃ item, entryAt dir (pos.take (k + 1)) = some item
          ∧ isVisible minimatch options item = true := by
    intro pos
    rw [mem_renderedPositions_iff, ← visibleAlong_iff]
    simp [hwd]
  refine ⟨getDirectoryStructure_eq_join_lines minimatch dir options indent depth,
    nodup_renderedPositions minimatch options dir depth, hmem, ?_, ?_⟩
  · intro hex pos name children hentry
    have hne : pos ≠ [] := by
      intro hp
      rw [hp] at hentry
      simp [entryAt] at hentry
    refine (hmem pos).mpr ⟨hne, ?_⟩
    intro k hk
    by_cases hlast : k + 1 < pos.length
    · obtain ⟨n2, c2, h2⟩ := ancestors_are_directories pos dir _ hentry k hlast
      exact ⟨_, h2, by simp [isVisible_dir, hex]⟩
    · have ht : pos.take (k + 1) = pos := List.take_of_length_le (by omega)
      rw [ht]
      exact ⟨_, hentry, by simp [isVisible_dir, hex]⟩
  · intro pos item hentry hinv below hmem2
    have hne : pos ≠ [] := by
      intro hp
      rw [hp] at hentry
      simp [entryAt] at hentry
    have hlen : 0 < pos.length := List.length_pos.mpr hne
    obtain ⟨_, hall⟩ := (hmem _).mp hmem2
    obtain ⟨it, h1, h2⟩ := hall (pos.length - 1) (by simp only [List.length_append]; omega)
    have ht : (pos ++ below).take (pos.length - 1 + 1) = pos := by
      have : pos.length - 1 + 1 = pos.length := by omega
      rw [this, List.take_left]
    rw [ht, hentry] at h1
    simp only [Option.some.injEq] at h1
    rw [h1, h2] at hinv
    simp at hinv

/-- C9 on the chain `a/b/c/d` of the test. -/
theorem unlimited_depth_renders_every_visible_entry_witness :
    (Options.mk [] [] false none).maxDepth = none
    ∧ (renderedPositions glob ⟨[], [], false, none⟩ 0
        [Entry.dir "a" [Entry.dir "b" [Entry.dir "c" [Entry.dir "d" []]]]]).Nodup
    ∧ [0, 0, 0, 0] ∈ renderedPositions glob ⟨[], [], false, none⟩ 0
        [Entry.dir "a" [Entry.dir "b" [Entry.dir "c" [Entry.dir "d" []]]]] :=
  ⟨rfl,
    (unlimited_depth_renders_every_visible_entry glob
      [Entry.dir "a" [Entry.dir "b" [Entry.dir "c" [Entry.dir "d" []]]]]
      ⟨[], [], false, none⟩ "" 0 rfl).2.1,
    (unlimited_depth_renders_every_visible_entry glob
      [Entry.dir "a" [Entry.dir "b" [Entry.dir "c" [Entry.dir "d" []]]]]
      ⟨[], [], false, none⟩ "" 0 rfl).2.2.2.1 rfl [0, 0, 0, 0] "d" [] rfl⟩

/-! ## Failing lookups -/

theorem filterE_map {α β : Type} (f : α → β) (p : β → Except Fallible.FsError Bool)
    (l : List α) :
    Fallible.filterE p (l.map f)
      = (Fallible.filterE (fun a => p (f a)) l).map (List.map f) := by
  induction l with
  | nil => rfl
  | cons a l ih =>
    simp only [List.map_cons, Fallible.filterE, ih]
    cases p (f a) with
    | error e => rfl
    | ok keep =>
      cases Fallible.filterE (fun a => p (f a)) l with
      | error e => rfl
      | ok rest => cases keep <;> rfl

/-- The fallible renderer on a directory whose listing succeeds: the filter, then the fold of
`emit` over the indexed filtered list. -/
theorem fallible_getDirectoryStructure_some (minimatch : String → String → Bool)
    (items : List Fallible.FsEntry) (options : Options) (indent : String) (depth : Nat) :
    Fallible.getDirectoryStructure minimatch (some items) options indent depth =
      (Fallible.filterE (Fallible.isVisible minimatch options) items).bind
        (fun visibleItems => visibleItems.enum.foldlM (fun result x =>
          Fallible.emit minimatch options indent depth visibleItems.length result x.1 x.2) "") := by
  rw [Fallible.getDirectoryStructure]
  have h := filterE_map (Subtype.val : { x // x ∈ items } → Fallible.FsEntry)
    (Fallible.isVisible minimatch options) items.attach
  rw [List.attach_map_subtype_val] at h
  rw [h]
  simp only [bind]
  cases Fallible.filterE (fun item : { x // x ∈ items } =>
      Fallible.isVisible minimatch options item.val) items.attach with
  | error e => rfl
  | ok vis =>
    simp only [Except.bind, Except.map, List.enum_map, List.foldlM_map, List.length_map]
    congr 1

theorem fallible_getDirectoryStructure_none (minimatch : String → String → Bool)
    (options : Options) (indent : String) (depth : Nat) :
    Fallible.getDirectoryStructure minimatch none options indent depth
      = .error Fallible.FsError.listing := by
  rw [Fallible.getDirectoryStructure]

theorem foldlM_ok {α : Type} (fE : String → α → Except Fallible.FsError String)
    (f : String → α → String) (l : List α)
    (h : ∀ x ∈ l, ∀ acc, fE acc x = .ok (f acc x)) (init : String) :
    l.foldlM fE init = .ok (l.foldl f init) := by
  induction l generalizing init with
  | nil => rfl
  | cons a l ih =>
    rw [List.foldlM_cons, h a (List.mem_cons_self _ _) init]
    exact ih (fun x hx => h x (List.mem_cons_of_mem _ hx)) _

theorem foldlM_error {α : Type} (fE : String → α → Except Fallible.FsError String)
    (l : List α) (x : α) (hx : x ∈ l) (h : ∀ acc, ∃ e, fE acc x = .error e) (init : String) :
    ∃ e, l.foldlM fE init = .error e := by
  induction l generalizing init with
  | nil => simp at hx
  | cons a l ih =>
    rw [List.foldlM_cons]
    cases hfa : fE init a with
    | error e => exact ⟨e, rfl⟩
    | ok acc =>
      rcases List.mem_cons.mp hx with hxa | hxl
      · obtain ⟨e, he⟩ := h init
        rw [hxa, hfa] at he
        simp at he
      · exact ih hxl acc

/-- Induction over fallible trees. -/
theorem fs_induction {P : Option (List Fallible.FsEntry) → Prop}
    (step : ∀ dir, (∀ items name listing, dir = some items →
      Fallible.FsEntry.dir name listing ∈ items → P listing) → P dir)
    (dir : Option (List Fallible.FsEntry)) : P dir := by
  have h : ∀ n (dir : Option (List Fallible.FsEntry)), sizeOf dir < n → P dir := by
    intro n
    induction n with
    | zero => intro dir h; omega
    | succ n ih =>
      intro dir h
      apply step
      intro items name listing hdir hmem
      apply ih
      have h1 := List.sizeOf_lt_of_mem hmem
      subst hdir
      simp at h1 h
      omega
  exact h _ dir (Nat.lt_succ_self _)

theorem healItems_eq_map (items : List Fallible.FsEntry) :
    Fallible.healItems items = items.map Fallible.healItem := by
  induction items with
  | nil => simp [Fallible.healItems]
  | cons a l ih => simp [Fallible.healItems, ih]

theorem visitedOkItems_iff (minimatch : String → String → Bool) (options : Options)
    (depth : Nat) (items : List Fallible.FsEntry) :
    Fallible.visitedOkItems minimatch options depth items = true ↔
      ∀ item ∈ items, Fallible.visitedOkItem minimatch options depth item = true := by
  induction items with
  | nil => simp [Fallible.visitedOkItems]
  | cons a l ih => simp [Fallible.visitedOkItems, ih]

/-- On an entry whose status lookup succeeds the fallible filter callback answers what the
callback answers on the healed entry. -/
theorem fallible_isVisible_ok (minimatch : String → String → Bool) (options : Options)
    (item : Fallible.FsEntry) (h : ∀ name, item ≠ Fallible.FsEntry.broken name) :
    Fallible.isVisible minimatch options item
      = .ok (isVisible minimatch options (Fallible.healItem item)) := by
  cases item with
  | file name =>
    simp only [Fallible.isVisible, Fallible.FsEntry.isDirectory, Fallible.FsEntry.name,
      Fallible.healItem, isVisible, Entry.isDirectory, Entry.name, bind, Except.bind, pure,
      Except.pure]
    cases options.excludeFiles.any (fun p => minimatch name p) <;>
      cases options.includeFiles <;> simp
  | dir name listing =>
    simp only [Fallible.isVisible, Fallible.FsEntry.isDirectory, Fallible.FsEntry.name,
      Fallible.healItem, isVisible, Entry.isDirectory, Entry.name, bind, Except.bind, pure,
      Except.pure]
    cases options.excludeDirs.any (fun p => minimatch name p) <;> simp
  | broken name => exact absurd rfl (h name)

theorem filterE_ok (minimatch : String → String → Bool) (options : Options)
    (items : List Fallible.FsEntry)
    (h : ∀ item ∈ items, ∀ name, item ≠ Fallible.FsEntry.broken name) :
    Fallible.filterE (Fallible.isVisible minimatch options) items
      = .ok (items.filter (fun item => isVisible minimatch options (Fallible.healItem item))) := by
  induction items with
  | nil => rfl
  | cons a l ih =>
    have ha := fallible_isVisible_ok minimatch options a (h a (List.mem_cons_self _ _))
    have hl := ih (fun item hi => h item (List.mem_cons_of_mem _ hi))
    simp only [Fallible.filterE, ha, hl, bind, Except.bind, pure, Except.pure]
    cases hv : isVisible minimatch options (Fallible.healItem a) <;>
      simp [List.filter_cons, hv]

theorem filterE_error (minimatch : String → String → Bool) (options : Options)
    (items : List Fallible.FsEntry) (name : String)
    (h : Fallible.FsEntry.broken name ∈ items) :
    ∃ e, Fallible.filterE (Fallible.isVisible minimatch options) items = .error e := by
  induction items with
  | nil => simp at h
  | cons a l ih =>
    simp only [Fallible.filterE, bind, Except.bind]
    cases ha : Fallible.isVisible minimatch options a with
    | error e => exact ⟨e, rfl⟩
    | ok keep =>
      rcases List.mem_cons.mp h with h1 | h1
      · rw [← h1] at ha
        simp [Fallible.isVisible, Fallible.FsEntry.isDirectory, bind, Except.bind] at ha
      · obtain ⟨e, he⟩ := ih h1
        rw [he]
        exact ⟨e, rfl⟩

theorem emit_file (minimatch : String → String → Bool) (options : Options) (indent : String)
    (depth len : Nat) (result : String) (index : Nat) (name : String) :
    Fallible.emit minimatch options indent depth len result index (.file name)
      = .ok (result ++ block minimatch options indent depth (index == len - 1)
          (Fallible.healItem (.file name))) := by
  simp [Fallible.emit, Fallible.FsEntry.isDirectory, Fallible.FsEntry.name, Fallible.healItem,
    block, expansion, Entry.name, bind, Except.bind, pure, Except.pure]

theorem emit_dir_shallow (minimatch : String → String → Bool) (options : Options)
    (indent : String) (depth len : Nat) (result : String) (index : Nat) (name : String)
    (listing : Option (List Fallible.FsEntry)) (hd : mayDescend options depth = false) :
    Fallible.emit minimatch options indent depth len result index (.dir name listing)
      = .ok (result ++ block minimatch options indent depth (index == len - 1)
          (Fallible.healItem (.dir name listing))) := by
  simp [Fallible.emit, Fallible.FsEntry.isDirectory, Fallible.FsEntry.name, Fallible.healItem,
    block, expansion, Entry.name, bind, Except.bind, pure, Except.pure, hd]

theorem emit_dir_deep (minimatch : String → String → Bool) (options : Options)
    (indent : String) (depth len : Nat) (result : String) (index : Nat) (name : String)
    (listing : Option (List Fallible.FsEntry)) (hd : mayDescend options depth = true) :
    Fallible.emit minimatch options indent depth len result index (.dir name listing)
      = (Fallible.getDirectoryStructure minimatch listing options
          (indent ++ segment (index == len - 1)) (depth + 1)).bind
        (fun sub => .ok (result ++ (indent ++ connector (index == len - 1) ++ name ++ "\n")
          ++ sub)) := by
  simp [Fallible.emit, Fallible.FsEntry.isDirectory, Fallible.FsEntry.name,
    Fallible.FsEntry.listing, bind, pure, Except.pure, hd]
  rfl

theorem getDirectoryStructure_heal_items (minimatch : String → String → Bool)
    (items : List Fallible.FsEntry) (options : Options) (indent : String) (depth : Nat) :
    getDirectoryStructure minimatch (Fallible.heal (some items)) options indent depth =
      (items.filter (fun item =>
          isVisible minimatch options (Fallible.healItem item))).enum.foldl (fun result x =>
        result ++ block minimatch options indent depth
          (x.1 == (items.filter (fun item =>
            isVisible minimatch options (Fallible.healItem item))).length - 1)
          (Fallible.healItem x.2)) "" := by
  rw [getDirectoryStructure_eq_foldl, Fallible.heal, healItems_eq_map, List.filter_map,
    List.enum_map, List.foldl_map, List.length_map]
  rfl

/-- C10. With fallible lookups and no handler in the renderer: when every lookup of the visited
part succeeds (`visitedOk`), the call returns the complete string, the one the renderer without
failures returns on the healed tree, so that failures under excluded directories or below the
depth cut-off do not change it; when some lookup of the visited part fails (the listing of a
visited directory, or the status of a child of a visited directory), the call returns an
error, never a string; in particular a failing listing of the root is an error. -/
theorem traversal_error_iff_visited_lookup_fails (minimatch : String → String → Bool)
    (options : Options) (dir : Option (List Fallible.FsEntry)) :
    ∀ (indent : String) (depth : Nat),
      (Fallible.visitedOk minimatch options depth dir = true →
        Fallible.getDirectoryStructure minimatch dir options indent depth
          = .ok (getDirectoryStructure minimatch (Fallible.heal dir) options indent depth))
      ∧ (Fallible.visitedOk minimatch options depth dir = false →
        ∃ e, Fallible.getDirectoryStructure minimatch dir options indent depth = .error e)
      ∧ Fallible.getDirectoryStructure minimatch none options indent depth
          = .error Fallible.FsError.listing := by
  induction dir using fs_induction with
  | step dir IH =>
    intro indent depth
    refine ⟨?_, ?_, fallible_getDirectoryStructure_none minimatch options indent depth⟩
    · intro hok
      cases dir with
      | none => simp [Fallible.visitedOk] at hok
      | some items =>
        rw [Fallible.visitedOk, visitedOkItems_iff] at hok
        have hnb : ∀ item ∈ items, ∀ name, item ≠ Fallible.FsEntry.broken name := by
          intro item hi name hname
          have := hok item hi
          rw [hname] at this
          simp [Fallible.visitedOkItem] at this
        rw [fallible_getDirectoryStructure_some, filterE_ok minimatch options items hnb,
          getDirectoryStructure_heal_items]
        simp only [Except.bind]
        apply foldlM_ok
        intro x hx acc
        have hx2 : x.2 ∈ items.filter (fun item =>
            isVisible minimatch options (Fallible.healItem item)) := by
          have := List.mem_enum_iff_getElem?.mp hx
          exact List.mem_iff_getElem?.mpr ⟨_, this⟩
        obtain ⟨hmem, hvis⟩ := List.mem_filter.mp hx2
        have hitem := hok x.2 hmem
        cases hx3 : x.2 with
        | file name => exact emit_file ..
        | broken name => exact absurd hx3 (hnb x.2 hmem name)
        | dir name listing =>
          rw [hx3] at hitem hvis hmem
          by_cases hd : mayDescend options depth = true
          · simp only [Fallible.healItem, isVisible_dir, decide_eq_true_eq] at hvis
            simp only [Fallible.visitedOkItem, hvis, hd, Bool.and_self, if_true] at hitem
            have hsub := (IH items name listing rfl hmem
              (indent ++ segment (x.1 == (items.filter (fun item =>
                isVisible minimatch options (Fallible.healItem item))).length - 1))
              (depth + 1)).1 hitem
            rw [emit_dir_deep _ _ _ _ _ _ _ _ _ hd, hsub]
            simp [Except.bind, block, expansion, Fallible.healItem, Entry.name, hd,
              String.append_assoc]
          · simp only [Bool.not_eq_true] at hd
            exact emit_dir_shallow _ _ _ _ _ _ _ _ _ hd
    · intro hbad
      cases dir with
      | none => exact ⟨_, fallible_getDirectoryStructure_none minimatch options indent depth⟩
      | some items =>
        rw [fallible_getDirectoryStructure_some]
        by_cases hbroken : ∃ name, Fallible.FsEntry.broken name ∈ items
        · obtain ⟨name, hname⟩ := hbroken
          obtain ⟨e, he⟩ := filterE_error minimatch options items name hname
          rw [he]
          exact ⟨e, rfl⟩
        · have hnb : ∀ item ∈ items, ∀ name, item ≠ Fallible.FsEntry.broken name := by
            intro item hi name hname
            exact hbroken ⟨name, hname ▸ hi⟩
          rw [filterE_ok minimatch options items hnb]
          simp only [Except.bind]
          have hex : ∃ item ∈ items,
              Fallible.visitedOkItem minimatch options depth item = false := by
            by_contra hcon
            simp only [not_exists, not_and, Bool.not_eq_false] at hcon
            rw [Fallible.visitedOk, (visitedOkItems_iff minimatch options depth items).mpr hcon]
              at hbad
            simp at hbad
          obtain ⟨item, hmem, hitem⟩ := hex
          cases item with
          | file name => simp [Fallible.visitedOkItem] at hitem
          | broken name => exact absurd rfl (hnb _ hmem name)
          | dir name listing =>
            simp only [Fallible.visitedOkItem] at hitem
            split at hitem
            · rename_i hcond
              simp only [Bool.and_eq_true, Bool.not_eq_true', List.any_eq_false] at hcond
              obtain ⟨hvis, hd⟩ := hcond
              have hin : Fallible.FsEntry.dir name listing ∈ items.filter (fun item =>
                  isVisible minimatch options (Fallible.healItem item)) := by
                apply List.mem_filter.mpr
                refine ⟨hmem, ?_⟩
                simp only [Fallible.healItem, isVisible_dir, Bool.not_eq_true',
                  List.any_eq_false]
                exact hvis
              obtain ⟨i, hi⟩ := List.mem_iff_getElem?.mp hin
              have hie : (i, Fallible.FsEntry.dir name listing) ∈ (items.filter (fun item =>
                  isVisible minimatch options (Fallible.healItem item))).enum :=
                List.mem_enum_iff_getElem?.mpr hi
              apply foldlM_error _ _ _ hie
              intro acc
              obtain ⟨e, he⟩ := (IH items name listing rfl hmem
                (indent ++ segment (i == (items.filter (fun item =>
                  isVisible minimatch options (Fallible.healItem item))).length - 1))
                (depth + 1)).2.1 hitem
              refine ⟨e, ?_⟩
              simp only []
              rw [emit_dir_deep _ _ _ _ _ _ _ _ _ hd, he]
              rfl
            · simp at hitem

/-- C10 on two trees, with `excludeDirs = ["node_*"]` and `maxDepth = 1`. In the first the
failing listings sit under the excluded `node_modules` and at `src/deep`, below the cut-off:
the call succeeds with the complete text. In the second a child of the root has a failing
status lookup: the call is an error. -/
theorem traversal_error_iff_visited_lookup_fails_witness :
    (Fallible.visitedOk glob ⟨["node_*"], [], true, some 1⟩ 0
        (some [.dir "src" (some [.file "a.js", .dir "deep" none]), .dir "node_modules" none,
          .file "x"]) = true
      ∧ Fallible.getDirectoryStructure glob
          (some [.dir "src" (some [.file "a.js", .dir "deep" none]), .dir "node_modules" none,
            .file "x"]) ⟨["node_*"], [], true, some 1⟩ "" 0
        = .ok "├── src\n│   ├── a.js\n│   └── deep\n└── x\n")
    ∧ (Fallible.visitedOk glob ⟨["node_*"], [], true, some 1⟩ 0
        (some [.dir "src" (some []), .broken "gone"]) = false
      ∧ ∃ e, Fallible.getDirectoryStructure glob (some [.dir "src" (some []), .broken "gone"])
          ⟨["node_*"], [], true, some 1⟩ "" 0 = .error e) :=
  ⟨⟨by decide,
    ((traversal_error_iff_visited_lookup_fails glob ⟨["node_*"], [], true, some 1⟩
      (some [.dir "src" (some [.file "a.js", .dir "deep" none]), .dir "node_modules" none,
        .file "x"]) "" 0).1 (by decide)).trans
      (congrArg Except.ok (by rw [getDirectoryStructure_eq_join_lines]; decide))⟩,
   ⟨by decide,
    (traversal_error_iff_visited_lookup_fails glob ⟨["node_*"], [], true, some 1⟩
      (some [.dir "src" (some []), .broken "gone"]) "" 0).2.1 (by decide)⟩⟩

/-! ## mergeOptions -/

/-- The merged options when `--max-depth` is absent or accepted. -/
theorem mergeOptions_ok (toNumber : String → JsNumber) (isWhiteSpace : Char → Bool)
    (c : RawOptions) (cli : CliValues)
    (h : ∀ s, cli.maxDepth = some s →
      (toNumber s).isInteger = true ∧ (toNumber s).ltZero = false) :
    mergeOptions toNumber isWhiteSpace c cli = .ok
      { excludeDirs :=
          match cli.excludeDirs with
          | some s => .arr ((splitPatterns isWhiteSpace s).map .str)
          | none => c.excludeDirs,
        excludeFiles :=
          match cli.excludeFiles with
          | some s => .arr ((splitPatterns isWhiteSpace s).map .str)
          | none => c.excludeFiles,
        includeFiles :=
          if truthy cli.noIncludeFiles then .bool false
          else
            match cli.includeFiles with
            | some v => .bool v
            | none => c.includeFiles,
        maxDepth :=
          match cli.maxDepth with
          | some s => .num (toNumber s)
          | none => c.maxDepth } := by
  obtain ⟨help, inc, noInc, md, ed, ef, cfg, noCfg⟩ := cli
  simp only at h
  cases md with
  | none =>
    cases ed <;> cases ef <;> cases inc <;> cases htr : truthy noInc <;>
      simp [mergeOptions, htr, bind, Except.bind, pure, Except.pure]
  | some s =>
    obtain ⟨h1, h2⟩ := h s rfl
    cases ed <;> cases ef <;> cases inc <;> cases htr : truthy noInc <;>
      simp [mergeOptions, htr, h1, h2, bind, Except.bind, pure, Except.pure]

/-- The call throws exactly when `--max-depth` is present and its number is not an integer or
is negative; the message is the one of cli.js line 59. -/
theorem mergeOptions_error_iff (toNumber : String → JsNumber) (isWhiteSpace : Char → Bool)
    (c : RawOptions) (cli : CliValues) (message : String) :
    mergeOptions toNumber isWhiteSpace c cli = .error message ↔
      ∃ s, cli.maxDepth = some s
        ∧ ((toNumber s).isInteger = false ∨ (toNumber s).ltZero = true)
        ∧ message = invalidMaxDepthMessage s := by
  constructor
  · intro herr
    by_contra hcon
    have hvalid : ∀ s, cli.maxDepth = some s →
        (toNumber s).isInteger = true ∧ (toNumber s).ltZero = false := by
      intro s hs
      by_contra hbad
      have hbad2 : (toNumber s).isInteger = false ∨ (toNumber s).ltZero = true := by
        cases h1 : (toNumber s).isInteger <;> cases h2 : (toNumber s).ltZero <;> simp_all
      apply hcon
      refine ⟨s, hs, hbad2, ?_⟩
      obtain ⟨help, inc, noInc, md, ed, ef, cfg, noCfg⟩ := cli
      simp only at hs
      subst hs
      have hthrow : (!(toNumber s).isInteger || (toNumber s).ltZero) = true := by
        rcases hbad2 with h1 | h1 <;> simp [h1]
      cases htr : truthy noInc <;> cases inc <;>
        simp [mergeOptions, htr, hthrow, bind, Except.bind, throw, throwThe,
          MonadExceptOf.throw] at herr <;> exact herr.symm
    rw [mergeOptions_ok toNumber isWhiteSpace c cli hvalid] at herr
    simp at herr
  · rintro ⟨s, hs, hbad, hmsg⟩
    obtain ⟨help, inc, noInc, md, ed, ef, cfg, noCfg⟩ := cli
    simp only at hs
    subst hs hmsg
    have hthrow : (!(toNumber s).isInteger || (toNumber s).ltZero) = true := by
      rcases hbad with h1 | h1 <;> simp [h1]
    cases htr : truthy noInc <;> cases inc <;>
      simp [mergeOptions, htr, hthrow, bind, Except.bind, throw, throwThe,
        MonadExceptOf.throw]

/-- C11, at the failing input. `Number("")` is `0` in JavaScript; with a `Number` that answers
so, a `--max-depth` whose value is the empty string is accepted: nothing is thrown and the
merged `maxDepth` is the number `0`. -/
theorem mergeOptions_accepts_empty_maxDepth (toNumber : String → JsNumber)
    (isWhiteSpace : Char → Bool) (c : RawOptions) (hempty : toNumber "" = .finite 0) :
    mergeOptions toNumber isWhiteSpace c
        { help := none, includeFiles := none, noIncludeFiles := none, maxDepth := some "",
          excludeDirs := none, excludeFiles := none, config := none, noConfig := none }
      = .ok { c with maxDepth := .num (.finite 0) } := by
  rw [mergeOptions_ok]
  · simp [truthy, hempty]
  · intro s hs
    simp only [Option.some.injEq] at hs
    subst hs
    rw [hempty]
    exact ⟨by decide, by decide⟩

/-- C11 at the failing input, with the sample `Number` and the defaults as config. -/
theorem mergeOptions_accepts_empty_maxDepth_witness :
    sampleNumber "" = .finite 0
    ∧ mergeOptions sampleNumber Char.isWhitespace DEFAULTS
        { help := none, includeFiles := none, noIncludeFiles := none, maxDepth := some "",
          excludeDirs := none, excludeFiles := none, config := none, noConfig := none }
      = .ok { DEFAULTS with maxDepth := .num (.finite 0) } :=
  ⟨rfl, mergeOptions_accepts_empty_maxDepth sampleNumber Char.isWhitespace DEFAULTS rfl⟩

theorem spacing_of_lt (fuel n : Nat) (h : n < 2 ^ 53) : spacing fuel n = 1 := by
  cases fuel with
  | zero => rfl
  | succ k => rw [spacing, if_pos h]

theorem roundToDouble_of_lt (n : Nat) (h : n < 2 ^ 53) : roundToDouble n = .finite n := by
  have h2 : n < (2 ^ 256) ^ 4 := lt_trans h (by decide)
  unfold roundToDouble
  simp only [spacing_of_lt n n h, Nat.mod_one, Nat.div_one, mul_zero, mul_one,
    Nat.zero_lt_one, if_true, h2]

/-- Every natural number up to 2^53 is a double: `Number` reads its numeral exactly. -/
theorem roundToDouble_of_le (n : Nat) (h : n ≤ 2 ^ 53) : roundToDouble n = .finite n := by
  rcases Nat.lt_or_ge n (2 ^ 53) with hlt | hge
  · exact roundToDouble_of_lt n hlt
  · have heq : n = 2 ^ 53 := Nat.le_antisymm h hge
    subst heq
    rfl

/-- The number value of a natural number is `Infinity` or a natural number. -/
theorem roundToDouble_cases (n : Nat) :
    roundToDouble n = .posInfinity ∨ ∃ k : Nat, roundToDouble n = .finite k := by
  unfold roundToDouble
  dsimp only
  split_ifs <;> first | exact Or.inl rfl | exact Or.inr ⟨_, rfl⟩

theorem digitChar_spec : ∀ k, k < 10 →
    (Nat.digitChar k).isDigit = true ∧ (Nat.digitChar k).isWhitespace = false
      ∧ (Nat.digitChar k).toNat - '0'.toNat = k := by
  decide

theorem digitsValue_append_singleton (pre : List Char) (c : Char) :
    digitsValue (pre ++ [c]) = 10 * digitsValue pre + (c.toNat - '0'.toNat) := by
  simp [digitsValue, List.foldl_append]

theorem toDigitsCore_spec : ∀ fuel n ds, n < fuel →
    ∃ pre, Nat.toDigitsCore 10 fuel n ds = pre ++ ds ∧ pre ≠ []
      ∧ (∀ c ∈ pre, c.isDigit = true ∧ c.isWhitespace = false) ∧ digitsValue pre = n := by
  intro fuel
  induction fuel with
  | zero => intro n ds h; omega
  | succ fuel ih =>
    intro n ds h
    have hd := digitChar_spec (n % 10) (Nat.mod_lt _ (by decide))
    by_cases h0 : n / 10 = 0
    · refine ⟨[Nat.digitChar (n % 10)], ?_, by simp, ?_, ?_⟩
      · simp [Nat.toDigitsCore, h0]
      · intro c hc
        rw [List.mem_singleton] at hc
        subst hc
        exact ⟨hd.1, hd.2.1⟩
      · have hn : n % 10 = n := by omega
        have := digitsValue_append_singleton [] (Nat.digitChar (n % 10))
        simp only [List.nil_append] at this
        rw [this, hd.2.2]
        simp [digitsValue, hn]
    · obtain ⟨pre, hpre, _, hall, hval⟩ :=
        ih (n / 10) (Nat.digitChar (n % 10) :: ds) (by omega)
      refine ⟨pre ++ [Nat.digitChar (n % 10)], ?_, by simp, ?_, ?_⟩
      · simp [Nat.toDigitsCore, h0, hpre]
      · intro c hc
        rw [List.mem_append, List.mem_singleton] at hc
        rcases hc with hc | hc
        · exact hall c hc
        · subst hc
          exact ⟨hd.1, hd.2.1⟩
      · rw [digitsValue_append_singleton, hval, hd.2.2]
        omega

theorem dropWhile_eq_self (p : Char → Bool) (cs : List Char) (h : ∀ c ∈ cs, p c = false) :
    cs.dropWhile p = cs := by
  cases cs with
  | nil => rfl
  | cons c cs => simp [List.dropWhile, h c (List.mem_cons_self _ _)]

theorem trim_eq_self (p : Char → Bool) (cs : List Char) (h : ∀ c ∈ cs, p c = false) :
    trim p cs = cs := by
  unfold trim
  rw [dropWhile_eq_self p cs h, dropWhile_eq_self p cs.reverse, List.reverse_reverse]
  intro c hc
  exact h c (List.mem_reverse.mp hc)

/-- On the decimal numeral of every natural number the sample `doubleNumber` answers the
double nearest to the number. -/
theorem doubleNumber_toString (n : Nat) : doubleNumber (toString n) = roundToDouble n := by
  obtain ⟨pre, hpre, hne, hall, hval⟩ := toDigitsCore_spec (n + 1) n [] (Nat.lt_succ_self n)
  rw [List.append_nil] at hpre
  have hdata : (toString n).data = pre := hpre
  unfold doubleNumber
  simp only [hdata, trim_eq_self Char.isWhitespace pre (fun c hc => (hall c hc).2)]
  have h1 : pre.isEmpty = false := by
    cases pre with
    | nil => exact absurd rfl hne
    | cons _ _ => rfl
  have h2 : pre.all Char.isDigit = true := List.all_eq_true.mpr (fun c hc => (hall c hc).1)
  simp [h1, h2, hval]

/-- The numeral of 2^53 + 1 is read as 2^53. -/
theorem doubleNumber_rounds :
    doubleNumber "9007199254740993" = .finite ((9007199254740992 : Nat) : ℚ) := by
  rfl

set_option maxRecDepth 20000 in
/-- The numeral of 10^309, a one followed by 309 zeros, is read as `Infinity`. -/
theorem doubleNumber_overflows :
    doubleNumber ("1" ++ String.mk (List.replicate 309 '0')) = .posInfinity := by
  rfl

/-- C12. Let `Number` read the decimal numeral of `n` as the double nearest to `n`, and let
the CLI `max-depth` hold that numeral. For every `n` up to 2^53 the call returns and the
merged `maxDepth` is the number `n`, whatever the config holds, `n = 0` included (the number
`0` is not `null`). For every `n` whose nearest double is finite the call returns and the
merged `maxDepth` is that double; when the nearest double is `Infinity` the call throws the
error of cli.js line 59; one of the two is the case. When `max-depth` is absent the call
returns and the merged `maxDepth` is the one of the config, unchanged. -/
theorem cli_maxDepth_overrides_config (toNumber : String → JsNumber)
    (isWhiteSpace : Char → Bool) (c : RawOptions) (cli : CliValues) :
    (∀ n : Nat, cli.maxDepth = some (toString n) → toNumber (toString n) = roundToDouble n →
      (n ≤ 2 ^ 53 →
        ∃ merged, mergeOptions toNumber isWhiteSpace c cli = .ok merged
          ∧ merged.maxDepth = .num (.finite n))
      ∧ (∀ k : Nat, roundToDouble n = .finite k →
        ∃ merged, mergeOptions toNumber isWhiteSpace c cli = .ok merged
          ∧ merged.maxDepth = .num (.finite k))
      ∧ (roundToDouble n = .posInfinity →
        mergeOptions toNumber isWhiteSpace c cli
          = .error (invalidMaxDepthMessage (toString n)))
      ∧ (roundToDouble n = .posInfinity ∨ ∃ k : Nat, roundToDouble n = .finite k))
    ∧ Json.num (.finite ((0 : Nat) : ℚ)) ≠ Json.null
    ∧ (cli.maxDepth = none →
      ∃ merged, mergeOptions toNumber isWhiteSpace c cli = .ok merged
        ∧ merged.maxDepth = c.maxDepth) := by
  refine ⟨?_, by simp, ?_⟩
  · intro n hn hnum
    have hfinite : ∀ k : Nat, roundToDouble n = .finite k →
        ∃ merged, mergeOptions toNumber isWhiteSpace c cli = .ok merged
          ∧ merged.maxDepth = .num (.finite k) := by
      intro k hk
      rw [hk] at hnum
      refine ⟨_, mergeOptions_ok toNumber isWhiteSpace c cli ?_, ?_⟩
      · intro s hs
        rw [hn] at hs
        simp only [Option.some.injEq] at hs
        subst hs
        rw [hnum]
        refine ⟨?_, ?_⟩
        · simp [JsNumber.isInteger, Rat.isInt]
        · simp [JsNumber.ltZero]
      · simp [hn, hnum]
    refine ⟨fun hle => hfinite n (roundToDouble_of_le n hle), hfinite, ?_,
      roundToDouble_cases n⟩
    intro hinf
    rw [hinf] at hnum
    refine (mergeOptions_error_iff toNumber isWhiteSpace c cli _).mpr
      ⟨toString n, hn, Or.inl ?_, rfl⟩
    rw [hnum]
    rfl
  · intro hnone
    refine ⟨_, mergeOptions_ok toNumber isWhiteSpace c cli ?_, ?_⟩
    · intro s hs
      rw [hnone] at hs
      simp at hs
    · simp [hnone]

/-- C12 with the sample `doubleNumber`: `--max-depth 0` over a config whose `maxDepth` is 10
gives the number 0, `--max-depth 9007199254740993` gives the double 9007199254740992, and no
`--max-depth` over a config whose `maxDepth` is 0 leaves the 0. -/
theorem cli_maxDepth_overrides_config_witness :
    ((some "0" : Option String) = some (toString 0)
      ∧ doubleNumber (toString 0) = roundToDouble 0
      ∧ 0 ≤ 2 ^ 53
      ∧ ∃ merged, mergeOptions doubleNumber Char.isWhitespace
          { DEFAULTS with maxDepth := .num (.finite 10) }
          { noValues with maxDepth := some "0" } = .ok merged
        ∧ merged.maxDepth = .num (.finite ((0 : Nat) : ℚ)))
    ∧ ((some "9007199254740993" : Option String) = some (toString 9007199254740993)
      ∧ doubleNumber (toString 9007199254740993) = roundToDouble 9007199254740993
      ∧ roundToDouble 9007199254740993 = .finite ((9007199254740992 : Nat) : ℚ)
      ∧ ∃ merged, mergeOptions doubleNumber Char.isWhitespace DEFAULTS
          { noValues with maxDepth := some "9007199254740993" } = .ok merged
        ∧ merged.maxDepth = .num (.finite ((9007199254740992 : Nat) : ℚ)))
    ∧ (noValues.maxDepth = none
      ∧ ∃ merged, mergeOptions doubleNumber Char.isWhitespace
          { DEFAULTS with maxDepth := .num (.finite 0) } noValues = .ok merged
        ∧ merged.maxDepth = .num (.finite 0)) :=
  ⟨⟨rfl, doubleNumber_toString 0, Nat.zero_le _,
    ((cli_maxDepth_overrides_config doubleNumber Char.isWhitespace
      { DEFAULTS with maxDepth := .num (.finite 10) }
      { noValues with maxDepth := some "0" }).1 0 rfl (doubleNumber_toString 0)).1
        (Nat.zero_le _)⟩,
   ⟨by decide, doubleNumber_toString 9007199254740993, rfl,
    ((cli_maxDepth_overrides_config doubleNumber Char.isWhitespace DEFAULTS
      { noValues with maxDepth := some "9007199254740993" }).1 9007199254740993 (by decide)
        (doubleNumber_toString 9007199254740993)).2.1 9007199254740992 rfl⟩,
   ⟨rfl,
    (cli_maxDepth_overrides_config doubleNumber Char.isWhitespace
      { DEFAULTS with maxDepth := .num (.finite 0) } noValues).2.2 rfl⟩⟩

/-- C12 as stated fails beyond 2^53. With `--max-depth 9007199254740993`, the numeral of
2^53 + 1, `Number` answers the double 9007199254740992, and the merged `maxDepth` is that
number, not the integer given. With a one followed by 309 zeros, the numeral of 10^309,
`Number` answers `Infinity`, which is not an integer, and the call throws. -/
theorem cli_maxDepth_rounded_to_double :
    (toString 9007199254740993 : String) = "9007199254740993"
    ∧ mergeOptions doubleNumber Char.isWhitespace DEFAULTS
        { noValues with maxDepth := some "9007199254740993" }
      = .ok { DEFAULTS with maxDepth := .num (.finite ((9007199254740992 : Nat) : ℚ)) }
    ∧ Json.num (.finite ((9007199254740992 : Nat) : ℚ))
      ≠ Json.num (.finite ((9007199254740993 : Nat) : ℚ))
    ∧ mergeOptions doubleNumber Char.isWhitespace DEFAULTS
        { noValues with maxDepth := some ("1" ++ String.mk (List.replicate 309 '0')) }
      = .error (invalidMaxDepthMessage ("1" ++ String.mk (List.replicate 309 '0'))) := by
  refine ⟨by decide, ?_, ?_, ?_⟩
  · rw [mergeOptions_ok]
    · simp [truthy, noValues, DEFAULTS, doubleNumber_rounds]
    · intro s hs
      simp only [noValues, Option.some.injEq] at hs
      subst hs
      rw [doubleNumber_rounds]
      exact ⟨by simp [JsNumber.isInteger, Rat.isInt], by simp [JsNumber.ltZero]⟩
  · intro h
    simp only [Json.num.injEq, JsNumber.finite.injEq] at h
    norm_num at h
  · refine (mergeOptions_error_iff doubleNumber Char.isWhitespace DEFAULTS _ _).mpr
      ⟨_, rfl, Or.inl ?_, rfl⟩
    rw [doubleNumber_overflows]
    rfl

/-- C13. With `include-files`, `max-depth`, `exclude-dirs` and `exclude-files` absent and
`no-include-files` not set, the call returns the config, field for field. -/
theorem no_cli_override_returns_config (toNumber : String → JsNumber)
    (isWhiteSpace : Char → Bool) (c : RawOptions) (cli : CliValues)
    (hno : truthy cli.noIncludeFiles = false) (hinc : cli.includeFiles = none)
    (hdepth : cli.maxDepth = none) (hdirs : cli.excludeDirs = none)
    (hfiles : cli.excludeFiles = none) :
    mergeOptions toNumber isWhiteSpace c cli = .ok c := by
  rw [mergeOptions_ok]
  · simp [hno, hinc, hdepth, hdirs, hfiles]
  · intro s hs
    rw [hdepth] at hs
    simp at hs

/-- C13 on the config and the empty values object of the test. -/
theorem no_cli_override_returns_config_witness :
    mergeOptions sampleNumber Char.isWhitespace
        { excludeDirs := .arr [.str ".git"], excludeFiles := .arr [.str "*.log"],
          includeFiles := .bool true, maxDepth := .num (.finite 5) }
        { help := none, includeFiles := none, noIncludeFiles := none, maxDepth := none,
          excludeDirs := none, excludeFiles := none, config := none, noConfig := none }
      = .ok { excludeDirs := .arr [.str ".git"], excludeFiles := .arr [.str "*.log"],
              includeFiles := .bool true, maxDepth := .num (.finite 5) } :=
  no_cli_override_returns_config sampleNumber Char.isWhitespace _ _ rfl rfl rfl rfl rfl

/-! ## Splitting the exclusion lists -/

theorem splitComma_ne_nil (cs : List Char) : splitComma cs ≠ [] := by
  cases cs with
  | nil => simp [splitComma]
  | cons c cs =>
    unfold splitComma
    split
    · simp
    · split <;> simp

/-- The pieces of `split(",")` hold no comma and, joined by commas, give the string back. -/
theorem splitComma_spec (cs : List Char) :
    (∀ piece ∈ splitComma cs, ',' ∉ piece)
      ∧ List.intercalate [','] (splitComma cs) = cs := by
  induction cs with
  | nil => simp [splitComma, List.intercalate]
  | cons c cs ih =>
    obtain ⟨ih1, ih2⟩ := ih
    unfold splitComma
    by_cases hc : c = ','
    · subst hc
      simp only [beq_self_eq_true, if_true]
      refine ⟨?_, ?_⟩
      · intro piece hp
        rcases List.mem_cons.mp hp with h | h
        · simp [h]
        · exact ih1 piece h
      · have hne := splitComma_ne_nil cs
        cases hsp : splitComma cs with
        | nil => exact absurd hsp hne
        | cons p rest =>
          rw [hsp] at ih2
          rw [← ih2]
          simp [List.intercalate, List.intersperse]
    · have hcb : (c == ',') = false := by simpa using hc
      simp only [hcb, Bool.false_eq_true, if_false]
      cases hsp : splitComma cs with
      | nil => exact absurd hsp (splitComma_ne_nil cs)
      | cons p rest =>
        rw [hsp] at ih1 ih2
        simp only []
        refine ⟨?_, ?_⟩
        · intro piece hp
          rcases List.mem_cons.mp hp with h | h
          · rw [h]
            intro hmem
            rcases List.mem_cons.mp hmem with h2 | h2
            · exact hc h2.symm
            · exact ih1 p (List.mem_cons_self _ _) h2
          · exact ih1 piece (List.mem_cons_of_mem _ h)
        · rw [← ih2]
          cases rest <;> simp [List.intercalate, List.intersperse]

theorem trim_subset (isWhiteSpace : Char → Bool) (cs : List Char) :
    ∀ c ∈ trim isWhiteSpace cs, c ∈ cs := by
  intro c hc
  unfold trim at hc
  rw [List.mem_reverse] at hc
  have h1 := List.dropWhile_subset isWhiteSpace hc
  rw [List.mem_reverse] at h1
  exact List.dropWhile_subset isWhiteSpace h1

theorem trim_last (isWhiteSpace : Char → Bool) (cs : List Char) (c : Char)
    (h : (trim isWhiteSpace cs).getLast? = some c) : isWhiteSpace c = false := by
  unfold trim at h
  rw [List.getLast?_reverse] at h
  have h2 := List.head?_dropWhile_not isWhiteSpace (cs.dropWhile isWhiteSpace).reverse
  rw [h] at h2
  simpa using h2

theorem trim_head (isWhiteSpace : Char → Bool) (cs : List Char) (c : Char)
    (h : (trim isWhiteSpace cs).head? = some c) : isWhiteSpace c = false := by
  unfold trim at h
  rw [List.head?_reverse] at h
  obtain ⟨t, ht⟩ := List.dropWhile_suffix isWhiteSpace
    (l := (cs.dropWhile isWhiteSpace).reverse)
  have hne : ((cs.dropWhile isWhiteSpace).reverse.dropWhile isWhiteSpace) ≠ [] := by
    intro hnil
    rw [hnil] at h
    simp at h
  have hlast : ((cs.dropWhile isWhiteSpace).reverse).getLast? = some c := by
    rw [← ht, List.getLast?_append_of_ne_nil _ hne]
    exact h
  rw [List.getLast?_reverse] at hlast
  have h2 := List.head?_dropWhile_not isWhiteSpace cs
  rw [hlast] at h2
  simpa using h2

/-- What the chain `split`, `trim`, `filter(Boolean)` yields: the trimmed pieces that are not
empty, in order; none is empty, starts or ends with a stripped character, or holds a comma. -/
theorem splitPatterns_spec (isWhiteSpace : Char → Bool) (s : String) :
    ∀ e ∈ splitPatterns isWhiteSpace s,
      e ≠ "" ∧ ',' ∉ e.data
        ∧ (∀ c, e.data.head? = some c → isWhiteSpace c = false)
        ∧ (∀ c, e.data.getLast? = some c → isWhiteSpace c = false) := by
  intro e he
  unfold splitPatterns at he
  obtain ⟨hmem, hne⟩ := List.mem_filter.mp he
  obtain ⟨piece, hpiece, hpe⟩ := List.mem_map.mp hmem
  subst hpe
  refine ⟨by simpa using hne, ?_, ?_, ?_⟩
  · intro hcomma
    exact (splitComma_spec s.data).1 piece hpiece (trim_subset isWhiteSpace piece _ hcomma)
  · intro c hc
    exact trim_head isWhiteSpace piece c hc
  · intro c hc
    exact trim_last isWhiteSpace piece c hc

/-- C14. When the call returns (it does unless `--max-depth` is rejected, so whenever
`max-depth` is absent), a CLI `exclude-dirs` (respectively `exclude-files`) string `s` makes
`excludeDirs` (respectively `excludeFiles`) the array of the strings obtained by splitting `s`
at the commas, trimming each piece and dropping the empty ones, in order, whatever the config
holds; the pieces of the splitting hold no comma and give `s` back when joined by commas; and
no element of the result is empty, holds a comma, or starts or ends with a character that
`trim` strips. -/
theorem exclude_patterns_split_and_trimmed (toNumber : String → JsNumber)
    (isWhiteSpace : Char → Bool) (c : RawOptions) (cli : CliValues) :
    (∀ merged, mergeOptions toNumber isWhiteSpace c cli = .ok merged →
      (∀ s, cli.excludeDirs = some s → merged.excludeDirs =
        .arr ((((splitComma s.data).map (fun piece => String.mk (trim isWhiteSpace piece))).filter
          (fun piece => piece != "")).map .str))
      ∧ (∀ s, cli.excludeFiles = some s → merged.excludeFiles =
        .arr ((((splitComma s.data).map (fun piece => String.mk (trim isWhiteSpace piece))).filter
          (fun piece => piece != "")).map .str)))
    ∧ (cli.maxDepth = none → ∃ merged, mergeOptions toNumber isWhiteSpace c cli = .ok merged)
    ∧ (∀ s : String, (∀ piece ∈ splitComma s.data, ',' ∉ piece)
        ∧ List.intercalate [','] (splitComma s.data) = s.data)
    ∧ (∀ (s : String), ∀ e ∈ ((splitComma s.data).map
          (fun piece => String.mk (trim isWhiteSpace piece))).filter (fun piece => piece != ""),
        e ≠ "" ∧ ',' ∉ e.data
          ∧ (∀ ch, e.data.head? = some ch → isWhiteSpace ch = false)
          ∧ (∀ ch, e.data.getLast? = some ch → isWhiteSpace ch = false)) := by
  refine ⟨?_, ?_, fun s => splitComma_spec s.data, fun s => splitPatterns_spec isWhiteSpace s⟩
  · intro merged hok
    have hvalid : ∀ s, cli.maxDepth = some s →
        (toNumber s).isInteger = true ∧ (toNumber s).ltZero = false := by
      intro s hs
      by_contra hbad
      have hbad2 : (toNumber s).isInteger = false ∨ (toNumber s).ltZero = true := by
        cases h1 : (toNumber s).isInteger <;> cases h2 : (toNumber s).ltZero <;> simp_all
      have herr := (mergeOptions_error_iff toNumber isWhiteSpace c cli
        (invalidMaxDepthMessage s)).mpr ⟨s, hs, hbad2, rfl⟩
      rw [herr] at hok
      simp at hok
    rw [mergeOptions_ok toNumber isWhiteSpace c cli hvalid] at hok
    simp only [Except.ok.injEq] at hok
    subst hok
    refine ⟨?_, ?_⟩
    · intro s hs
      simp [hs, splitPatterns]
    · intro s hs
      simp [hs, splitPatterns]
  · intro hnone
    refine ⟨_, mergeOptions_ok toNumber isWhiteSpace c cli ?_⟩
    intro s hs
    rw [hnone] at hs
    simp at hs

/-- C14 on the string of the test: `"node_modules, .git, dist"` gives the three names. -/
theorem exclude_patterns_split_and_trimmed_witness :
    noValues.maxDepth = none
    ∧ (∃ merged, mergeOptions sampleNumber Char.isWhitespace DEFAULTS
        { noValues with excludeDirs := some "node_modules, .git, dist" } = .ok merged)
    ∧ (((splitComma "node_modules, .git, dist".data).map
          (fun piece => String.mk (trim Char.isWhitespace piece))).filter
          (fun piece => piece != ""))
        = ["node_modules", ".git", "dist"] :=
  ⟨rfl,
    (exclude_patterns_split_and_trimmed sampleNumber Char.isWhitespace DEFAULTS
      { noValues with excludeDirs := some "node_modules, .git, dist" }).2.1 rfl,
    by decide⟩

/-- C20. When the call returns (it does unless `--max-depth` is present and rejected): with
`no-include-files` set, `includeFiles` is `false` whatever the config and `include-files`
hold; with it not set and `include-files` present, `includeFiles` is the value of
`include-files`; with neither, it is the one of the config. The values object carries no
order of the flags. -/
theorem no_include_files_wins (toNumber : String → JsNumber) (isWhiteSpace : Char → Bool)
    (c : RawOptions) (cli : CliValues) :
    (∀ merged, mergeOptions toNumber isWhiteSpace c cli = .ok merged →
      (truthy cli.noIncludeFiles = true → merged.includeFiles = .bool false)
      ∧ (truthy cli.noIncludeFiles = false → ∀ v, cli.includeFiles = some v →
          merged.includeFiles = .bool v)
      ∧ (truthy cli.noIncludeFiles = false → cli.includeFiles = none →
          merged.includeFiles = c.includeFiles))
    ∧ ((∀ s, cli.maxDepth = some s →
          (toNumber s).isInteger = true ∧ (toNumber s).ltZero = false) →
        ∃ merged, mergeOptions toNumber isWhiteSpace c cli = .ok merged) := by
  refine ⟨?_, fun hvalid => ⟨_, mergeOptions_ok toNumber isWhiteSpace c cli hvalid⟩⟩
  intro merged hok
  have hvalid : ∀ s, cli.maxDepth = some s →
      (toNumber s).isInteger = true ∧ (toNumber s).ltZero = false := by
    intro s hs
    by_contra hbad
    have hbad2 : (toNumber s).isInteger = false ∨ (toNumber s).ltZero = true := by
      cases h1 : (toNumber s).isInteger <;> cases h2 : (toNumber s).ltZero <;> simp_all
    have herr := (mergeOptions_error_iff toNumber isWhiteSpace c cli
      (invalidMaxDepthMessage s)).mpr ⟨s, hs, hbad2, rfl⟩
    rw [herr] at hok
    simp at hok
  rw [mergeOptions_ok toNumber isWhiteSpace c cli hvalid] at hok
  simp only [Except.ok.injEq] at hok
  subst hok
  refine ⟨?_, ?_, ?_⟩
  · intro h
    simp [h]
  · intro h v hv
    simp [h, hv]
  · intro h hv
    simp [h, hv]

/-- C20 with both flags given, in the two orders, over a config that includes files: the
sample parser yields the same values and the merged `includeFiles` is `false`. -/
theorem no_include_files_wins_witness :
    sampleEnv.parseCliArgs ["--include-files", "--no-include-files"]
      = sampleEnv.parseCliArgs ["--no-include-files", "--include-files"]
    ∧ truthy ({ noValues with includeFiles := some true, noIncludeFiles := some true } :
        CliValues).noIncludeFiles = true
    ∧ ∀ merged, mergeOptions sampleNumber Char.isWhitespace
        { DEFAULTS with includeFiles := .bool true }
        { noValues with includeFiles := some true, noIncludeFiles := some true } = .ok merged →
      merged.includeFiles = .bool false :=
  ⟨rfl, rfl, fun merged hok =>
    ((no_include_files_wins sampleNumber Char.isWhitespace
      { DEFAULTS with includeFiles := .bool true }
      { noValues with includeFiles := some true, noIncludeFiles := some true }).1 merged hok).1
      rfl⟩

/-! ## loadConfig -/

/-- C15. `loadConfig` is a total function (its `catch` turns every exception into the
defaults), and it returns exactly the defaults `excludeDirs: []`, `excludeFiles: []`,
`includeFiles: false`, `maxDepth: null` for `configPath = false`, for a path (given, or the
default one) whose file cannot be read, and for a file whose content `JSON.parse` rejects. -/
theorem loadConfig_defaults_on_failure (env : ConfigEnv) :
    loadConfig env .disabled = DEFAULTS
    ∧ (∀ path e, env.readFileSync path = .error e → loadConfig env (.given path) = DEFAULTS)
    ∧ (∀ e, env.readFileSync env.defaultPath = .error e → loadConfig env .absent = DEFAULTS)
    ∧ (∀ path text e, env.readFileSync path = .ok text → env.jsonParse text = .error e →
        loadConfig env (.given path) = DEFAULTS)
    ∧ (∀ text e, env.readFileSync env.defaultPath = .ok text → env.jsonParse text = .error e →
        loadConfig env .absent = DEFAULTS)
    ∧ DEFAULTS = { excludeDirs := .arr [], excludeFiles := .arr [], includeFiles := .bool false,
                   maxDepth := .null } := by
  refine ⟨rfl, ?_, ?_, ?_, ?_, rfl⟩
  · intro path e h
    simp [loadConfig, h, bind, Except.bind]
  · intro e h
    simp [loadConfig, h, bind, Except.bind]
  · intro path text e h1 h2
    simp [loadConfig, h1, h2, bind, Except.bind]
  · intro text e h1 h2
    simp [loadConfig, h1, h2, bind, Except.bind]

/-- C15 with a path whose file is missing (no file can be read in the sample surrounding). -/
theorem loadConfig_defaults_on_failure_witness :
    sampleEnv.config.readFileSync "/tmp/nonexistent.json" = .error "ENOENT"
    ∧ loadConfig sampleEnv.config (.given "/tmp/nonexistent.json")
      = { excludeDirs := .arr [], excludeFiles := .arr [], includeFiles := .bool false,
          maxDepth := .null } :=
  ⟨rfl, (loadConfig_defaults_on_failure sampleEnv.config).2.1 "/tmp/nonexistent.json" "ENOENT"
    rfl⟩

/-- C16. When the file (at the given path, or at the default path when none is given) is
read and its content parses to an object, each of the four fields
of the result is `property ?? default`: the value of the property in the file when it is
present and not `null`, the default (`[]`, `[]`, `false`, `null`) otherwise. -/
theorem loadConfig_reads_present_fields (env : ConfigEnv) (configPath : ConfigPath)
    (path text : String) (fields : List (String × Json))
    (hpath : configPath = .given path ∨ (configPath = .absent ∧ env.defaultPath = path))
    (hread : env.readFileSync path = .ok text)
    (hparse : env.jsonParse text = .ok (.obj fields)) :
    loadConfig env configPath =
        { excludeDirs := nullish (fields.lookup "excludeDirs") (.arr []),
          excludeFiles := nullish (fields.lookup "excludeFiles") (.arr []),
          includeFiles := nullish (fields.lookup "includeFiles") (.bool false),
          maxDepth := nullish (fields.lookup "maxDepth") .null }
    ∧ (∀ fallback, nullish none fallback = fallback)
    ∧ (∀ fallback, nullish (some .null) fallback = fallback)
    ∧ (∀ v fallback, v ≠ Json.null → nullish (some v) fallback = v) := by
  refine ⟨?_, fun _ => rfl, fun _ => rfl, ?_⟩
  · rcases hpath with h | ⟨h, hdefault⟩
    · subst h
      simp [loadConfig, hread, hparse, bind, Except.bind, pure, Except.pure,
        Json.getProperty, DEFAULTS]
    · subst h
      simp [loadConfig, hdefault, hread, hparse, bind, Except.bind, pure, Except.pure,
        Json.getProperty, DEFAULTS]
  · intro v fallback hv
    cases v <;> first | rfl | exact absurd rfl hv

/-- C16 on the two files of the tests: `maxDepth: 0` comes back as the number 0 and
`includeFiles: false` as `false`, the other fields as the defaults. -/
theorem loadConfig_reads_present_fields_witness :
    loadConfig
        { readFileSync := fun _ => .ok "\x7b\"maxDepth\":0\x7d",
          jsonParse := fun _ => .ok (.obj [("maxDepth", .num (.finite 0))]),
          defaultPath := "config/config.json" } (.given "config.json")
      = { excludeDirs := .arr [], excludeFiles := .arr [], includeFiles := .bool false,
          maxDepth := .num (.finite 0) }
    ∧ loadConfig
        { readFileSync := fun _ => .ok "\x7b\"includeFiles\":false\x7d",
          jsonParse := fun _ => .ok (.obj [("includeFiles", .bool false)]),
          defaultPath := "config/config.json" } (.given "config.json")
      = { excludeDirs := .arr [], excludeFiles := .arr [], includeFiles := .bool false,
          maxDepth := .null } :=
  ⟨(loadConfig_reads_present_fields
      { readFileSync := fun _ => .ok "\x7b\"maxDepth\":0\x7d",
        jsonParse := fun _ => .ok (.obj [("maxDepth", .num (.finite 0))]),
        defaultPath := "config/config.json" } (.given "config.json") "config.json" _
      [("maxDepth", .num (.finite 0))] (Or.inl rfl) rfl rfl).1,
   (loadConfig_reads_present_fields
      { readFileSync := fun _ => .ok "\x7b\"includeFiles\":false\x7d",
        jsonParse := fun _ => .ok (.obj [("includeFiles", .bool false)]),
        defaultPath := "config/config.json" } (.given "config.json") "config.json" _
      [("includeFiles", .bool false)] (Or.inl rfl) rfl rfl).1⟩

/-! ## main -/

/-- C17, as amended. When parsing the arguments fails with message `m`, `main` writes
`"Error: " ++ m` and the hint to run `--help` to standard error, nothing to standard output,
sets the exit code to 1 and does not call the renderer. When parsing succeeds, help is not
asked for and the number of the `--max-depth` value is not an integer or is negative, `main`
sets the exit code to 1, writes nothing to standard output, does not call the renderer, and the
first line on standard error is `"Error: "` followed by the message
`Invalid --max-depth value: ...`. -/
theorem main_reports_errors (env : MainEnv) (argv : Option (List String)) :
    (∀ message, env.parseCliArgs (argv.getD env.processArgs) = .error message →
      main env argv =
        { stdout := [],
          stderr := ["Error: " ++ message,
            "Run \"tree-export --help\" for usage information."],
          exitCode := some 1, renderCalls := [], uncaught := none })
    ∧ (∀ parsed s, env.parseCliArgs (argv.getD env.processArgs) = .ok parsed →
        truthy parsed.values.help = false →
        parsed.values.maxDepth = some s →
        ((env.toNumber s).isInteger = false ∨ (env.toNumber s).ltZero = true) →
        (main env argv).exitCode = some 1
          ∧ (main env argv).stdout = []
          ∧ (main env argv).renderCalls = []
          ∧ (main env argv).uncaught = none
          ∧ (main env argv).stderr.head?
              = some ("Error: " ++ "Invalid --max-depth value: \"" ++ s
                  ++ "\". Must be a non-negative integer.")) := by
  refine ⟨?_, ?_⟩
  · intro message h
    simp [main, h]
  · intro parsed s hparse hhelp hdepth hbad
    have herr : ∀ c, mergeOptions env.toNumber env.isWhiteSpace c parsed.values
        = .error (invalidMaxDepthMessage s) := fun c =>
      (mergeOptions_error_iff env.toNumber env.isWhiteSpace c parsed.values
        (invalidMaxDepthMessage s)).mpr ⟨s, hdepth, hbad, rfl⟩
    simp [main, hparse, hhelp, herr, invalidMaxDepthMessage, String.append_assoc]
    rw [← String.append_assoc]
    rfl

/-- C17 as amended, on an unknown flag and on `--max-depth abc` (sample surrounding). -/
theorem main_reports_errors_witness :
    (sampleEnv.parseCliArgs ((some ["--bad-flag"]).getD sampleEnv.processArgs)
        = .error "Unknown option '--bad-flag'"
      ∧ main sampleEnv (some ["--bad-flag"]) =
        { stdout := [],
          stderr := ["Error: " ++ "Unknown option '--bad-flag'",
            "Run \"tree-export --help\" for usage information."],
          exitCode := some 1, renderCalls := [], uncaught := none })
    ∧ ((sampleEnv.toNumber "abc").isInteger = false
      ∧ (main sampleEnv (some ["--max-depth", "abc"])).exitCode = some 1
      ∧ (main sampleEnv (some ["--max-depth", "abc"])).stdout = []
      ∧ (main sampleEnv (some ["--max-depth", "abc"])).renderCalls = []) :=
  ⟨⟨rfl, (main_reports_errors sampleEnv (some ["--bad-flag"])).1 _ rfl⟩,
   ⟨rfl,
    ((main_reports_errors sampleEnv (some ["--max-depth", "abc"])).2
      { values := { noValues with maxDepth := some "abc" }, positionals := [] } "abc"
      rfl rfl rfl (Or.inl rfl)).1,
    ((main_reports_errors sampleEnv (some ["--max-depth", "abc"])).2
      { values := { noValues with maxDepth := some "abc" }, positionals := [] } "abc"
      rfl rfl rfl (Or.inl rfl)).2.1,
    ((main_reports_errors sampleEnv (some ["--max-depth", "abc"])).2
      { values := { noValues with maxDepth := some "abc" }, positionals := [] } "abc"
      rfl rfl rfl (Or.inl rfl)).2.2.1⟩⟩

/-- C17 as stated fails: with `--help` next to an invalid `--max-depth` value, `main` prints
the help text to standard output and leaves the exit code unset; and for an invalid
`--max-depth` value without `--help`, standard error holds the diagnostic alone, without the
hint to run `--help` that a parsing failure gets. -/
theorem main_help_before_maxDepth_check :
    (sampleEnv.toNumber "abc").isInteger = false
    ∧ (main sampleEnv (some ["--help", "--max-depth", "abc"])).exitCode = none
    ∧ (main sampleEnv (some ["--help", "--max-depth", "abc"])).stdout = [HELP_TEXT]
    ∧ (main sampleEnv (some ["--help", "--max-depth", "abc"])).stderr = []
    ∧ (main sampleEnv (some ["--max-depth", "abc"])).stderr
        = ["Error: Invalid --max-depth value: \"abc\". Must be a non-negative integer."] := by
  refine ⟨rfl, rfl, rfl, rfl, rfl⟩

/-! ## Order of the lines -/

theorem head_of_mem_shownFrom (minimatch : String → String → Bool) (options : Options)
    (depth : Nat) (items : List Entry) (raw : Nat) (pos : List Nat)
    (h : pos ∈ shownFrom minimatch options depth raw items) :
    ∃ i rest, pos = (raw + i) :: rest := by
  obtain ⟨i, _, rest, _, _, hpos, _⟩ :=
    (mem_shownFrom_iff minimatch options depth items raw pos).mp h
  exact ⟨i, rest, hpos⟩

theorem pairwise_lex_shownFrom (minimatch : String → String → Bool) (options : Options)
    (depth : Nat) (items : List Entry)
    (IH : ∀ name children, Entry.dir name children ∈ items → ∀ depth,
      (renderedPositions minimatch options depth children).Pairwise (List.Lex (· < ·))) :
    ∀ raw, (shownFrom minimatch options depth raw items).Pairwise (List.Lex (· < ·)) := by
  induction items with
  | nil => intro raw; simp [shownFrom_nil]
  | cons a l ih =>
    intro raw
    rw [shownFrom_cons, List.pairwise_append]
    have hl := ih (fun name children hmem => IH name children (List.mem_cons_of_mem _ hmem))
      (raw + 1)
    have hunder : (shownUnder minimatch options depth a).Pairwise (List.Lex (· < ·)) := by
      cases a with
      | file name => simp [shownUnder_file]
      | dir name children =>
        rw [shownUnder_dir]
        split
        · exact IH name children (List.mem_cons_self _ _) (depth + 1)
        · exact List.Pairwise.nil
    refine ⟨?_, hl, ?_⟩
    · split
      · rw [List.pairwise_cons]
        refine ⟨?_, ?_⟩
        · intro q hq
          obtain ⟨u, hu, hq2⟩ := List.mem_map.mp hq
          have hu2 := ((mem_shownUnder_iff minimatch options depth a u).mp hu).2
          have hne := ne_nil_of_mem_shownFrom minimatch options (depth + 1) a.children 0 u hu2
          obtain ⟨x, t, rfl⟩ := List.exists_cons_of_ne_nil hne
          rw [← hq2]
          exact List.Lex.cons List.Lex.nil
        · rw [List.pairwise_map]
          exact hunder.imp (fun h => List.Lex.cons h)
      · exact List.Pairwise.nil
    · intro q hq q2 hq2
      obtain ⟨i, rest, hrest⟩ :=
        head_of_mem_shownFrom minimatch options depth l (raw + 1) q2 hq2
      subst hrest
      split at hq
      · rcases List.mem_cons.mp hq with h3 | h3
        · rw [h3]
          exact List.Lex.rel (by omega)
        · obtain ⟨u, _, hu⟩ := List.mem_map.mp h3
          rw [← hu]
          exact List.Lex.rel (by omega)
      · simp at hq

/-- The rendered positions are strictly increasing in the lexicographic order of index paths,
in which a position comes before its extensions: the order of a pre-order walk that visits
the children in listing order. -/
theorem pairwise_lex_renderedPositions (minimatch : String → String → Bool)
    (options : Options) (dir : List Entry) :
    ∀ depth, (renderedPositions minimatch options depth dir).Pairwise (List.Lex (· < ·)) := by
  induction dir using forest_induction with
  | step dir IH =>
    intro depth
    exact pairwise_lex_shownFrom minimatch options depth dir IH 0

theorem not_lex_append_self (p r : List Nat) : ¬ List.Lex (· < ·) (p ++ r) p := by
  induction p with
  | nil => simp
  | cons a p ih =>
    intro h
    rw [List.cons_append, List.Lex.cons_iff] at h
    exact ih h

theorem lex_skips_extensions (p : List Nat) :
    ∀ x y : List Nat, List.Lex (· < ·) p x → (∀ r, x ≠ p ++ r) → List.Lex (· < ·) x y →
      ∀ r, y ≠ p ++ r := by
  induction p with
  | nil =>
    intro x y _ hx _
    exact absurd rfl (hx x)
  | cons a p ih =>
    intro x y hpx hx hxy r hy
    cases hpx with
    | cons h =>
      rename_i x2
      have hx2 : ∀ r, x2 ≠ p ++ r := by
        intro r2 heq
        exact hx r2 (by rw [heq]; rfl)
      cases hxy with
      | cons h2 =>
        rename_i y2
        simp only [List.cons_append, List.cons.injEq, true_and] at hy
        exact ih x2 y2 h hx2 h2 r hy
      | rel h2 =>
        simp only [List.cons_append, List.cons.injEq] at hy
        omega
    | rel h =>
      cases hxy with
      | cons h2 =>
        simp only [List.cons_append, List.cons.injEq] at hy
        omega
      | rel h2 =>
        simp only [List.cons_append, List.cons.injEq] at hy
        omega

theorem pair_sublist_of_pairwise {R : List Nat → List Nat → Prop}
    (hasymm : ∀ a b, R a b → ¬ R b a) (l : List (List Nat)) (hl : l.Pairwise R)
    (a b : List Nat) (ha : a ∈ l) (hb : b ∈ l) (hab : R a b) : [a, b].Sublist l := by
  induction l with
  | nil => simp at ha
  | cons x t ih =>
    rw [List.pairwise_cons] at hl
    rcases List.mem_cons.mp ha with hax | hat
    · rcases List.mem_cons.mp hb with hbx | hbt
      · rw [hax, hbx] at hab
        exact absurd hab (hasymm x x hab)
      · rw [hax]
        exact List.Sublist.cons₂ x (List.singleton_sublist.mpr hbt)
    · rcases List.mem_cons.mp hb with hbx | hbt
      · have := hl.1 a hat
        rw [hbx] at hab
        exact absurd this (hasymm a x hab)
      · exact List.Sublist.cons x (ih hl.2 hat hbt)

theorem lex_asymm (a b : List Nat) (h : List.Lex (· < ·) a b) : ¬ List.Lex (· < ·) b a :=
  fun h2 => (List.Lex.isAsymm (· < · : Nat → Nat → Prop)).asymm a b h h2

theorem take_eq_iff_extension (p q : List Nat) :
    (q.take p.length == p) = true ↔ ∃ r, q = p ++ r := by
  rw [beq_iff_eq]
  constructor
  · intro h
    refine ⟨q.drop p.length, ?_⟩
    conv_lhs => rw [← List.take_append_drop p.length q]
    rw [h]
  · rintro ⟨r, rfl⟩
    simp

/-- In a list of positions that increases lexicographically, the extensions of a member form
a block right after it. -/
theorem extensions_form_block (l : List (List Nat)) (hl : l.Pairwise (List.Lex (· < ·)))
    (p : List Nat) (hp : p ∈ l) :
    ∃ before block after, l = before ++ p :: (block ++ after)
      ∧ (∀ q ∈ block, ∃ r, r ≠ [] ∧ q = p ++ r)
      ∧ (∀ q ∈ before, ∀ r, q ≠ p ++ r)
      ∧ (∀ q ∈ after, ∀ r, q ≠ p ++ r) := by
  obtain ⟨before, rest, hsplit⟩ := List.append_of_mem hp
  subst hsplit
  rw [List.pairwise_append, List.pairwise_cons] at hl
  obtain ⟨_, ⟨hrest, hpw⟩, hbefore⟩ := hl
  refine ⟨before, rest.takeWhile (fun q => q.take p.length == p),
    rest.dropWhile (fun q => q.take p.length == p), ?_, ?_, ?_, ?_⟩
  · rw [List.takeWhile_append_dropWhile]
  · intro q hq
    have hext := List.mem_takeWhile_imp hq
    obtain ⟨r, hr⟩ := (take_eq_iff_extension p q).mp hext
    refine ⟨r, ?_, hr⟩
    intro hnil
    have hq2 : q ∈ rest := (List.takeWhile_sublist _).subset hq
    have hlex := hrest q hq2
    rw [hr, hnil, List.append_nil] at hlex
    exact lex_asymm p p hlex hlex
  · intro q hq r hqr
    have hlex := hbefore q hq p (List.mem_cons_self _ _)
    rw [hqr] at hlex
    exact not_lex_append_self p r hlex
  · intro q hq
    cases hdw : rest.dropWhile (fun q => q.take p.length == p) with
    | nil => rw [hdw] at hq; simp at hq
    | cons x t =>
      have hxnot : ∀ r, x ≠ p ++ r := by
        intro r hxr
        have h1 := List.head?_dropWhile_not (fun q => q.take p.length == p) rest
        rw [hdw] at h1
        simp only [List.head?_cons] at h1
        have h2 := (take_eq_iff_extension p x).mpr ⟨r, hxr⟩
        rw [h1] at h2
        simp at h2
      have hsub : (x :: t).Sublist rest := by
        rw [← hdw]
        exact List.dropWhile_sublist _
      have hxrest : x ∈ rest := hsub.subset (List.mem_cons_self _ _)
      have hpx := hrest x hxrest
      have hpw2 := hpw.sublist hsub
      rw [List.pairwise_cons] at hpw2
      rw [hdw] at hq
      rcases List.mem_cons.mp hq with h | h
      · rw [h]
        exact hxnot
      · exact lex_skips_extensions p x q hpx hxnot (hpw2.1 q h)

/-- C18. The output is the concatenation of the lines of the rendered positions in their
order, and this order is the pre-order of the tree along the listings, nothing being sorted:
the rendered positions increase lexicographically as paths of listing indices; so two
rendered children `i < j` of the same directory appear in this order; and for every rendered
position the rendered positions below it form one block that starts right after it, every
other position standing before the position or after the block. -/
theorem lines_in_listing_preorder (minimatch : String → String → Bool) (dir : List Entry)
    (options : Options) (indent : String) (depth : Nat) :
    getDirectoryStructure minimatch dir options indent depth =
        String.join ((renderedPositions minimatch options depth dir).map
          (fun pos => indent ++ lineText minimatch options dir pos))
    ∧ (renderedPositions minimatch options depth dir).Pairwise (List.Lex (· < ·))
    ∧ (∀ parent i j, i < j →
        parent ++ [i] ∈ renderedPositions minimatch options depth dir →
        parent ++ [j] ∈ renderedPositions minimatch options depth dir →
        [parent ++ [i], parent ++ [j]].Sublist (renderedPositions minimatch options depth dir))
    ∧ (∀ pos ∈ renderedPositions minimatch options depth dir,
        ∃ before block after,
          renderedPositions minimatch options depth dir = before ++ pos :: (block ++ after)
          ∧ (∀ q ∈ block, ∃ r, r ≠ [] ∧ q = pos ++ r)
          ∧ (∀ q ∈ before, ∀ r, q ≠ pos ++ r)
          ∧ (∀ q ∈ after, ∀ r, q ≠ pos ++ r)) := by
  have hpw := pairwise_lex_renderedPositions minimatch options dir depth
  refine ⟨getDirectoryStructure_eq_join_lines minimatch dir options indent depth, hpw, ?_, ?_⟩
  · intro parent i j hij hi hj
    apply pair_sublist_of_pairwise lex_asymm _ hpw _ _ hi hj
    clear hi hj hpw
    induction parent with
    | nil => exact List.Lex.rel hij
    | cons a parent ih => exact List.Lex.cons ih
  · intro pos hpos
    exact extensions_form_block _ hpw pos hpos

/-- C18 on a listing given as `zzz`, `aaa` (with a child), in this order: `zzz` comes first,
and the child of `aaa` is the block after `aaa`. -/
theorem lines_in_listing_preorder_witness :
    (0 < 1
      ∧ [] ++ [0] ∈ renderedPositions glob ⟨[], [], false, none⟩ 0
          [Entry.dir "zzz" [], Entry.dir "aaa" [Entry.dir "x" []]]
      ∧ [] ++ [1] ∈ renderedPositions glob ⟨[], [], false, none⟩ 0
          [Entry.dir "zzz" [], Entry.dir "aaa" [Entry.dir "x" []]]
      ∧ [[] ++ [0], [] ++ [1]].Sublist (renderedPositions glob ⟨[], [], false, none⟩ 0
          [Entry.dir "zzz" [], Entry.dir "aaa" [Entry.dir "x" []]]))
    ∧ renderedPositions glob ⟨[], [], false, none⟩ 0
        [Entry.dir "zzz" [], Entry.dir "aaa" [Entry.dir "x" []]] = [[0], [1], [1, 0]]
    ∧ getDirectoryStructure glob [Entry.dir "zzz" [], Entry.dir "aaa" [Entry.dir "x" []]]
        ⟨[], [], false, none⟩ "" 0 = "├── zzz\n└── aaa\n    └── x\n" :=
  ⟨⟨by decide, by decide, by decide,
    (lines_in_listing_preorder glob [Entry.dir "zzz" [], Entry.dir "aaa" [Entry.dir "x" []]]
      ⟨[], [], false, none⟩ "" 0).2.2.1 [] 0 1 (by decide) (by decide) (by decide)⟩,
   by decide,
   by rw [getDirectoryStructure_eq_join_lines]; decide⟩

/-! ## Termination and the nesting of invocations -/

theorem option_foldlM_some {α : Type} (f : String → α → Option String) (l : List α)
    (h : ∀ x ∈ l, ∀ acc, ∃ r, f acc x = some r) (init : String) :
    ∃ r, l.foldlM f init = some r := by
  induction l generalizing init with
  | nil => exact ⟨init, rfl⟩
  | cons a l ih =>
    obtain ⟨r, hr⟩ := h a (List.mem_cons_self _ _) init
    rw [List.foldlM_cons, hr]
    exact ih (fun x hx => h x (List.mem_cons_of_mem _ hx)) r

theorem option_foldlM_none {α : Type} (f : String → α → Option String) (l : List α) (x : α)
    (hx : x ∈ l) (h : ∀ acc, f acc x = none) (init : String) :
    l.foldlM f init = none := by
  induction l generalizing init with
  | nil => simp at hx
  | cons a l ih =>
    rw [List.foldlM_cons]
    cases hfa : f init a with
    | none => rfl
    | some acc =>
      rcases List.mem_cons.mp hx with hxa | hxl
      · have hnone := h init
        rw [hxa, hfa] at hnone
        simp at hnone
      · exact ih hxl acc

/-- With `maxDepth = d`, an invocation at depth `depth` completes as soon as `fuel` nested
invocations are allowed, `fuel` being at least 1 and at least `d + 1 - depth`. -/
theorem onPaths_completes_within_maxDepth {P : Type} (fs : FileSystem P)
    (minimatch : String → String → Bool) (options : Options) (d : Nat)
    (hd : options.maxDepth = some d) :
    ∀ (fuel : Nat) (dir : P) (indent : String) (depth : Nat),
      1 ≤ fuel → d + 1 ≤ fuel + depth →
      ∃ s, OnPaths.getDirectoryStructure fs minimatch fuel dir options indent depth = some s := by
  intro fuel
  induction fuel with
  | zero => intro dir indent depth h; omega
  | succ fuel ih =>
    intro dir indent depth _ hbound
    unfold OnPaths.getDirectoryStructure
    apply option_foldlM_some
    intro x _ acc
    by_cases hcond : (fs.isDirectory (fs.join dir x.2) && mayDescend options depth) = true
    · have hlt : depth < d := by
        simp only [Bool.and_eq_true, mayDescend, hd, decide_eq_true_eq] at hcond
        exact hcond.2
      obtain ⟨sub, hsub⟩ := ih (fs.join dir x.2)
        (indent ++ (if (x.1 == ((fs.readdirSync dir).filter
          (OnPaths.isVisible fs minimatch options dir)).length - 1) = true
          then "    " else "│   ")) (depth + 1) (by omega) (by omega)
      simp only [hcond, if_true, hsub]
      exact ⟨_, rfl⟩
    · simp only [hcond, Bool.false_eq_true, if_false]
      exact ⟨_, rfl⟩

/-- With `maxDepth = d`, every invocation nested below one whose depth argument is at most
`d` has a depth argument at most `d`. -/
theorem onPaths_depth_le_maxDepth {P : Type} (fs : FileSystem P)
    (minimatch : String → String → Bool) (options : Options) (d : Nat)
    (hd : options.maxDepth = some d) (start call : P × Nat) (hstart : start.2 ≤ d)
    (h : Relation.ReflTransGen (OnPaths.Calls fs minimatch options) start call) :
    call.2 ≤ d := by
  induction h with
  | refl => exact hstart
  | tail _ hstep _ =>
    cases hstep with
    | nested dir depth item _ _ _ hdepth =>
      simp only [mayDescend, hd, decide_eq_true_eq] at hdepth
      simp only
      omega

/-- With `maxDepth = null`, an invocation on a directory below which the directories nest at
most `h` deep completes with `h + 1` nested invocations allowed. -/
theorem onPaths_completes_on_tree {P : Type} (fs : FileSystem P)
    (minimatch : String → String → Bool) (options : Options) :
    ∀ (h : Nat) (dir : P) (indent : String) (depth : Nat),
      OnPaths.dirDepthLE fs h dir = true →
      ∃ s, OnPaths.getDirectoryStructure fs minimatch (h + 1) dir options indent depth
        = some s := by
  intro h
  induction h with
  | zero =>
    intro dir indent depth hle
    unfold OnPaths.getDirectoryStructure
    apply option_foldlM_some
    intro x hx acc
    have hmem : x.2 ∈ fs.readdirSync dir := by
      have h1 := List.mem_enum_iff_getElem?.mp hx
      exact (List.mem_filter.mp (List.mem_iff_getElem?.mpr ⟨_, h1⟩)).1
    simp only [OnPaths.dirDepthLE, List.all_eq_true, Bool.not_eq_true'] at hle
    simp only [hle x.2 hmem, Bool.false_and, Bool.false_eq_true, if_false]
    exact ⟨_, rfl⟩
  | succ h ih =>
    intro dir indent depth hle
    unfold OnPaths.getDirectoryStructure
    apply option_foldlM_some
    intro x hx acc
    have hmem : x.2 ∈ fs.readdirSync dir := by
      have h1 := List.mem_enum_iff_getElem?.mp hx
      exact (List.mem_filter.mp (List.mem_iff_getElem?.mpr ⟨_, h1⟩)).1
    simp only [OnPaths.dirDepthLE, List.all_eq_true, Bool.or_eq_true,
      Bool.not_eq_true'] at hle
    by_cases hcond : (fs.isDirectory (fs.join dir x.2) && mayDescend options depth) = true
    · have hisdir : fs.isDirectory (fs.join dir x.2) = true := by
        simp only [Bool.and_eq_true] at hcond
        exact hcond.1
      have hchild : OnPaths.dirDepthLE fs h (fs.join dir x.2) = true := by
        rcases hle x.2 hmem with h1 | h1
        · rw [h1] at hisdir
          simp at hisdir
        · exact h1
      obtain ⟨sub, hsub⟩ := ih (fs.join dir x.2)
        (indent ++ (if (x.1 == ((fs.readdirSync dir).filter
          (OnPaths.isVisible fs minimatch options dir)).length - 1) = true
          then "    " else "│   ")) (depth + 1) hchild
      simp only [hcond, if_true, hsub]
      exact ⟨_, rfl⟩
    · simp only [hcond, Bool.false_eq_true, if_false]
      exact ⟨_, rfl⟩

theorem onPaths_isVisible_dir {P : Type} (fs : FileSystem P)
    (minimatch : String → String → Bool) (options : Options) (dir : P) (item : String)
    (hex : options.excludeDirs = []) (hdir : fs.isDirectory (fs.join dir item) = true) :
    OnPaths.isVisible fs minimatch options dir item = true := by
  simp [OnPaths.isVisible, hex, hdir]

/-- With `maxDepth = null` and no `excludeDirs` pattern, an invocation on a directory below
which the directories nest more than `h` deep does not complete with `h + 1` nested
invocations allowed. -/
theorem onPaths_needs_directory_depth {P : Type} (fs : FileSystem P)
    (minimatch : String → String → Bool) (options : Options)
    (hnull : options.maxDepth = none) (hex : options.excludeDirs = []) :
    ∀ (h : Nat) (dir : P) (indent : String) (depth : Nat),
      OnPaths.dirDepthLE fs h dir = false →
      OnPaths.getDirectoryStructure fs minimatch (h + 1) dir options indent depth = none := by
  have hdescend : ∀ depth, mayDescend options depth = true := by
    intro depth
    simp [mayDescend, hnull]
  intro h
  induction h with
  | zero =>
    intro dir indent depth hle
    simp only [OnPaths.dirDepthLE, List.all_eq_false, Bool.not_eq_true', Bool.not_eq_false] at hle
    obtain ⟨item, hitem, hdir⟩ := hle
    have hin : item ∈ (fs.readdirSync dir).filter
        (OnPaths.isVisible fs minimatch options dir) :=
      List.mem_filter.mpr ⟨hitem, onPaths_isVisible_dir fs minimatch options dir item hex hdir⟩
    obtain ⟨i, hi⟩ := List.mem_iff_getElem?.mp hin
    have hie : (i, item) ∈ ((fs.readdirSync dir).filter
        (OnPaths.isVisible fs minimatch options dir)).enum :=
      List.mem_enum_iff_getElem?.mpr hi
    unfold OnPaths.getDirectoryStructure
    apply option_foldlM_none _ _ _ hie
    intro acc
    simp [hdir, hdescend, OnPaths.getDirectoryStructure]
  | succ h ih =>
    intro dir indent depth hle
    simp only [OnPaths.dirDepthLE, List.all_eq_false, Bool.or_eq_true, Bool.not_eq_true',
      not_or, Bool.not_eq_false, Bool.not_eq_true] at hle
    obtain ⟨item, hitem, hdir, hchild⟩ := hle
    have hin : item ∈ (fs.readdirSync dir).filter
        (OnPaths.isVisible fs minimatch options dir) :=
      List.mem_filter.mpr ⟨hitem, onPaths_isVisible_dir fs minimatch options dir item hex hdir⟩
    obtain ⟨i, hi⟩ := List.mem_iff_getElem?.mp hin
    have hie : (i, item) ∈ ((fs.readdirSync dir).filter
        (OnPaths.isVisible fs minimatch options dir)).enum :=
      List.mem_enum_iff_getElem?.mpr hi
    unfold OnPaths.getDirectoryStructure
    apply option_foldlM_none _ _ _ hie
    intro acc
    simp only [hdir, hdescend, Bool.and_self, if_true]
    rw [ih (fs.join dir item) _ (depth + 1) hchild]

/-- C19, as amended. On a filesystem that is any map from paths to finite listings, cycles
allowed: with `maxDepth = d`, the call at depth 0 completes with at most `d + 1` nested
invocations, and every nested invocation has a depth argument at most `d`; with
`maxDepth = null`, the call on a directory below which the directories nest at most `h` deep
(a finite tree without cycle) completes with at most `h + 1` nested invocations, and with no
`excludeDirs` pattern it needs that many: `h + 1` do not suffice when the directories nest
deeper than `h`. -/
theorem recursion_depth_bounded {P : Type} (fs : FileSystem P)
    (minimatch : String → String → Bool) (options : Options) :
    (∀ d, options.maxDepth = some d →
      (∀ root indent, ∃ s,
        OnPaths.getDirectoryStructure fs minimatch (d + 1) root options indent 0 = some s)
      ∧ (∀ root call,
          Relation.ReflTransGen (OnPaths.Calls fs minimatch options) (root, 0) call →
          call.2 ≤ d))
    ∧ (options.maxDepth = none → ∀ h root indent depth,
        OnPaths.dirDepthLE fs h root = true →
        ∃ s, OnPaths.getDirectoryStructure fs minimatch (h + 1) root options indent depth
          = some s)
    ∧ (options.maxDepth = none → options.excludeDirs = [] → ∀ h root indent depth,
        OnPaths.dirDepthLE fs h root = false →
        OnPaths.getDirectoryStructure fs minimatch (h + 1) root options indent depth
          = none) := by
  refine ⟨?_, ?_, ?_⟩
  · intro d hd
    refine ⟨?_, ?_⟩
    · intro root indent
      exact onPaths_completes_within_maxDepth fs minimatch options d hd (d + 1) root indent 0
        (by omega) (by omega)
    · intro root call hcall
      exact onPaths_depth_le_maxDepth fs minimatch options d hd (root, 0) call
        (Nat.zero_le d) hcall
  · intro _ h root indent depth hle
    exact onPaths_completes_on_tree fs minimatch options h root indent depth hle
  · intro hnull hex h root indent depth hle
    exact onPaths_needs_directory_depth fs minimatch options hnull hex h root indent depth hle

/-- C19 as amended, on a directory that contains itself with `maxDepth = 2` (three nested
invocations complete the call), and on the chain `a/b` with `maxDepth = null` (directories
nest 2 deep: three nested invocations complete the call, two do not). -/
theorem recursion_depth_bounded_witness :
    ((Options.mk [] [] false (some 2)).maxDepth = some 2
      ∧ ∃ s, OnPaths.getDirectoryStructure loopFs glob (2 + 1) () ⟨[], [], false, some 2⟩ "" 0
          = some s)
    ∧ ((Options.mk [] [] false none).maxDepth = none
      ∧ OnPaths.dirDepthLE chainFs 2 0 = true
      ∧ ∃ s, OnPaths.getDirectoryStructure chainFs glob (2 + 1) 0 ⟨[], [], false, none⟩ "" 0
          = some s)
    ∧ ((Options.mk [] [] false none).excludeDirs = []
      ∧ OnPaths.dirDepthLE chainFs 1 0 = false
      ∧ OnPaths.getDirectoryStructure chainFs glob (1 + 1) 0 ⟨[], [], false, none⟩ "" 0
          = none) :=
  ⟨⟨rfl, ((recursion_depth_bounded loopFs glob ⟨[], [], false, some 2⟩).1 2 rfl).1 () ""⟩,
   ⟨rfl, by decide,
    (recursion_depth_bounded chainFs glob ⟨[], [], false, none⟩).2.1 rfl 2 0 "" 0 (by decide)⟩,
   ⟨rfl, by decide,
    (recursion_depth_bounded chainFs glob ⟨[], [], false, none⟩).2.2 rfl rfl 1 0 "" 0
      (by decide)⟩⟩

/-- C19 as stated fails: on the chain `a/b` the directories nest 2 deep (not at most 1), and
with `maxDepth = null` and `a` excluded the call completes with a single invocation, which
returns the empty text: the recursion is shallower than the directories. -/
theorem recursion_shallower_than_excluded_directories :
    (Options.mk ["a"] [] false none).maxDepth = none
    ∧ OnPaths.dirDepthLE chainFs 2 0 = true
    ∧ OnPaths.dirDepthLE chainFs 1 0 = false
    ∧ OnPaths.getDirectoryStructure chainFs glob 1 0 ⟨["a"], [], false, none⟩ "" 0
        = some "" := by
  decide

/-! ## The indent argument -/

theorem segment_no_newline (isLast : Bool) : ∀ c ∈ (segment isLast).data, c ≠ '\n' := by
  cases isLast <;> decide

theorem connector_no_newline (isLast : Bool) : ∀ c ∈ (connector isLast).data, c ≠ '\n' := by
  cases isLast <;> decide

theorem join_no_newline (l : List String) (h : ∀ s ∈ l, ∀ c ∈ s.data, c ≠ '\n') :
    ∀ c ∈ (String.join l).data, c ≠ '\n' := by
  induction l with
  | nil => intro c hc; simp [join_nil] at hc
  | cons s l ih =>
    intro c hc
    rw [join_cons, String.data_append, List.mem_append] at hc
    rcases hc with h1 | h1
    · exact h s (List.mem_cons_self _ _) c h1
    · exact ih (fun t ht => h t (List.mem_cons_of_mem _ ht)) c h1

/-- C21. For every tree, options, depth and indent: the call with the empty indent returns the
concatenation of the lines of the rendered positions, and the call with the indent `indent`
returns the concatenation of the same lines, in the same order, each with `indent` put in
front of it. Which positions are rendered, their order and the text of a line (segments,
connector, name) do not depend on the indent; every line ends with a newline, its only one
when the name holds none, so that these lines are then the lines of the returned text. -/
theorem indent_only_prepended_to_lines (minimatch : String → String → Bool)
    (dir : List Entry) (options : Options) (indent : String) (depth : Nat) :
    getDirectoryStructure minimatch dir options "" depth =
        String.join ((renderedPositions minimatch options depth dir).map
          (lineText minimatch options dir))
    ∧ getDirectoryStructure minimatch dir options indent depth =
        String.join (((renderedPositions minimatch options depth dir).map
          (lineText minimatch options dir)).map (fun line => indent ++ line))
    ∧ ∀ pos, ∃ text, lineText minimatch options dir pos = text ++ "\n"
        ∧ ((∀ c ∈ (nameAt dir pos).data, c ≠ '\n') → ∀ c ∈ text.data, c ≠ '\n') := by
  refine ⟨?_, ?_, ?_⟩
  · rw [getDirectoryStructure_eq_join_lines]
    simp
  · rw [getDirectoryStructure_eq_join_lines, List.map_map]
    rfl
  · intro pos
    refine ⟨_, rfl, ?_⟩
    intro hname c hc
    simp only [String.data_append, List.mem_append] at hc
    rcases hc with (hseg | hconn) | hnm
    · refine join_no_newline _ ?_ c hseg
      intro seg hs
      obtain ⟨k, _, hk⟩ := List.mem_map.mp hs
      rw [← hk]
      exact segment_no_newline _
    · exact connector_no_newline _ c hconn
    · exact hname c hnm

/-- C21 on the tree `src/app.js`, `lib` with files included and the indent `"> "`. -/
theorem indent_only_prepended_to_lines_witness :
    getDirectoryStructure glob [Entry.dir "src" [Entry.file "app.js"], Entry.dir "lib" []]
        ⟨[], [], true, none⟩ "" 0
      = "├── src\n│   └── app.js\n└── lib\n"
    ∧ getDirectoryStructure glob [Entry.dir "src" [Entry.file "app.js"], Entry.dir "lib" []]
        ⟨[], [], true, none⟩ "> " 0
      = "> ├── src\n> │   └── app.js\n> └── lib\n"
    ∧ ((∀ c ∈ (nameAt [Entry.dir "src" [Entry.file "app.js"], Entry.dir "lib" []] [0, 0]).data,
          c ≠ '\n')
      ∧ ∃ text, lineText glob ⟨[], [], true, none⟩
            [Entry.dir "src" [Entry.file "app.js"], Entry.dir "lib" []] [0, 0] = text ++ "\n"
          ∧ ∀ c ∈ text.data, c ≠ '\n') :=
  ⟨(indent_only_prepended_to_lines glob
      [Entry.dir "src" [Entry.file "app.js"], Entry.dir "lib" []]
      ⟨[], [], true, none⟩ "> " 0).1.trans (by decide),
   (indent_only_prepended_to_lines glob
      [Entry.dir "src" [Entry.file "app.js"], Entry.dir "lib" []]
      ⟨[], [], true, none⟩ "> " 0).2.1.trans (by decide),
   by decide,
   ((indent_only_prepended_to_lines glob
      [Entry.dir "src" [Entry.file "app.js"], Entry.dir "lib" []]
      ⟨[], [], true, none⟩ "> " 0).2.2 [0, 0]).imp (fun _ h => ⟨h.1, h.2 (by decide)⟩)⟩

/-! ## The legacy renderer -/

theorem legacy_isVisible_eq (minimatch : String → String → Bool) (options : Options) :
    Legacy.isVisible minimatch options.includeFiles options = isVisible minimatch options := by
  funext item
  rfl

/-- The legacy renderer as a left fold over the indexed filtered listing. -/
theorem legacy_getDirectoryStructure_eq_foldl (minimatch : String → String → Bool)
    (dir : List Entry) (includeFiles : Bool) (config : Options) (indent : String)
    (depth : Nat) :
    Legacy.getDirectoryStructure minimatch dir includeFiles config indent depth =
      (dir.filter (Legacy.isVisible minimatch includeFiles config)).enum.foldl (fun result x =>
        result ++ Legacy.block minimatch includeFiles config indent depth
          (x.1 == (dir.filter (Legacy.isVisible minimatch includeFiles config)).length - 1)
          x.2) "" := by
  rw [Legacy.getDirectoryStructure]
  rw [← foldl_enum_attach_filter dir (Legacy.isVisible minimatch includeFiles config)
        (fun result i item =>
          result ++ Legacy.block minimatch includeFiles config indent depth
            (i == (dir.filter (Legacy.isVisible minimatch includeFiles config)).length - 1)
            item) ""]
  simp only [length_attach_filter]
  congr 1
  funext result x
  obtain ⟨i, ⟨v, hv⟩⟩ := x
  cases v with
  | file n => simp [Legacy.block, connector, Entry.name]
  | dir n cs =>
    simp only [Legacy.block, connector, segment, Entry.name]
    split <;> simp [String.append_assoc]

/-- C22. For every tree, options, indent and depth the renderer of tree.js called as
`getDirectoryStructure(dir, options, indent, depth)` and the renderer of index.js called as
`getDirectoryStructure(dir, options.includeFiles, options, indent, depth)` return the same
string. -/
theorem refactored_equals_legacy (minimatch : String → String → Bool) (dir : List Entry)
    (options : Options) :
    ∀ (indent : String) (depth : Nat),
      getDirectoryStructure minimatch dir options indent depth =
        Legacy.getDirectoryStructure minimatch dir options.includeFiles options indent
          depth := by
  induction dir using forest_induction with
  | step dir IH =>
    intro indent depth
    rw [getDirectoryStructure_eq_foldl, legacy_getDirectoryStructure_eq_foldl,
      legacy_isVisible_eq]
    apply List.foldl_ext
    intro result x hx
    have hmem : x.2 ∈ dir := by
      have h1 := List.mem_enum_iff_getElem?.mp hx
      exact (List.mem_filter.mp (List.mem_iff_getElem?.mpr ⟨_, h1⟩)).1
    congr 1
    cases hitem : x.2 with
    | file name => simp [block, expansion, Legacy.block, Entry.name]
    | dir name children =>
      rw [hitem] at hmem
      simp only [block, expansion, Legacy.block, Entry.name]
      rw [IH name children hmem]

end NodeTreeExporter
